import Mathlib

/-!
Verification development for the hole-data ETL pipeline (pipeline.py).

The pipeline reads a parts table whose `holes` column holds a JSON-encoded
array of hole descriptors (or null), flattens it into one row per hole
(`create_holes_df`), and derives per-hole reachability risk flags
(`create_unreachable_df`).  This file gives a shallow embedding of the
transform phase: Python values are modelled by `PyVal`, Python exceptions by
`PyErr`, fallible code returns `Except PyErr _`, and the pandas dataframes are
modelled as lists of rows (a row is an association list of column name to
value; the positional index of a row in the list plays the role of the
dataframe index).
-/

/-- Ten to a natural power, as an integer. -/
def pow10 (e : Nat) : Int := Int.ofNat (10 ^ e)

/-- Exact decimal number mant / 10 ^ exp: the value of a JSON numeric literal
(mantissa and decimal scale).  JSON numbers are decimal, so this represents
them exactly; it is interpreted into the rationals by DecNum.toRat for the
specification-level statements. -/
structure DecNum where
  mant : Int
  exp : Nat
deriving DecidableEq, Repr

/-- The rational value of a decimal number. -/
def DecNum.toRat (d : DecNum) : Rat := (d.mant : Rat) / (10 : Rat) ^ d.exp

/-- Multiply a decimal number by a natural literal. -/
def DecNum.mulNat (d : DecNum) (n : Nat) : DecNum := ⟨d.mant * Int.ofNat n, d.exp⟩

/-- Strict comparison of decimal numbers by cross-multiplication. -/
def DecNum.blt (a b : DecNum) : Bool :=
  decide (a.mant * pow10 b.exp < b.mant * pow10 a.exp)

/-- Model of the Python/JSON values that can appear in a hole descriptor:
JSON null maps to Python `None`, JSON numbers to `num` (ints and decimals are
both modelled as exact decimals), and objects to association lists of string
keys. -/
inductive PyVal where
  | none
  | bool (b : Bool)
  | num (q : DecNum)
  | str (s : String)
  | list (xs : List PyVal)
  | dict (kvs : List (String × PyVal))

/-- The Python exception classes the transform phase can raise. -/
inductive PyErr where
  | keyError
  | typeError
  | jsonDecodeError
  | valueError
deriving DecidableEq, Repr

/-- Truth of `pd.isnull` / `is None` on a modelled value. -/
def PyVal.isNull : PyVal → Bool
  | .none => true
  | _ => false

/-- Python dict lookup on an association list: the first binding wins (the
JSON parser below keeps keys unique, updating in place on duplicates, so this
matches CPython dict semantics). -/
def dictGet (kvs : List (String × PyVal)) (k : String) : Option PyVal :=
  (kvs.find? (fun kv => kv.1 == k)).map (fun kv => kv.2)

/-- Python dict assignment `d[k] = v`: update the binding in place if the key
exists, otherwise append a new binding at the end. -/
def dictSet (kvs : List (String × PyVal)) (k : String) (v : PyVal) :
    List (String × PyVal) :=
  if kvs.any (fun kv => kv.1 == k) then
    kvs.map (fun kv => if kv.1 == k then (k, v) else kv)
  else
    kvs ++ [(k, v)]

/-- Python subscription `obj[key]` with a string key.  Only dicts support it:
a missing key raises `KeyError`; subscripting `None`, booleans, numbers,
strings or lists with a string key raises `TypeError` (for strings and lists
because the index is not an integer, for the rest because the object is not
subscriptable). -/
def getItem (v : PyVal) (k : String) : Except PyErr PyVal :=
  match v with
  | .dict kvs =>
    match dictGet kvs k with
    | some w => .ok w
    | Option.none => .error .keyError
  | _ => .error .typeError

/-- Embedding of `extract_hole_feature(hole, feature, subfeature)`
(pipeline.py lines 24-42): attempt `hole[feature][subfeature]` (or
`hole[feature]` when no subfeature), catching `KeyError` only — a raised
`TypeError` (e.g. a null feature being subscripted) propagates. -/
def extract_hole_feature (hole : PyVal) (feature : String)
    (subfeature : Option String) : Except PyErr PyVal :=
  let attempt : Except PyErr PyVal :=
    match subfeature with
    | some sub => do
      let f ← getItem hole feature
      getItem f sub
    | Option.none => getItem hole feature
  match attempt with
  | .error .keyError => .ok .none
  | out => out

/-- The 13 output feature names, in the order `extract_hole` assigns them. -/
def featureNames : List String :=
  ["center_x", "center_y", "center_z",
   "direction_x", "direction_y", "direction_z",
   "end1_closed", "end1_reachable",
   "end2_closed", "end2_reachable",
   "facet_count", "length", "radius"]

/-- A dataframe row: an association list of column name to value. -/
abbrev Row := List (String × PyVal)

/-- Embedding of `extract_hole(hole)` (pipeline.py lines 44-74): build the
13-entry feature record by sequential assignments; the first uncaught
exception aborts the whole call. -/
def extract_hole (hole : PyVal) : Except PyErr Row := do
  let center_x ← extract_hole_feature hole "center" (some "x")
  let center_y ← extract_hole_feature hole "center" (some "y")
  let center_z ← extract_hole_feature hole "center" (some "z")
  let direction_x ← extract_hole_feature hole "direction" (some "x")
  let direction_y ← extract_hole_feature hole "direction" (some "y")
  let direction_z ← extract_hole_feature hole "direction" (some "z")
  let end1_closed ← extract_hole_feature hole "end1" (some "closed")
  let end1_reachable ← extract_hole_feature hole "end1" (some "reachable")
  let end2_closed ← extract_hole_feature hole "end2" (some "closed")
  let end2_reachable ← extract_hole_feature hole "end2" (some "reachable")
  let facet_count ← extract_hole_feature hole "facet_count" Option.none
  let length ← extract_hole_feature hole "length" Option.none
  let radius ← extract_hole_feature hole "radius" Option.none
  pure [("center_x", center_x), ("center_y", center_y), ("center_z", center_z),
        ("direction_x", direction_x), ("direction_y", direction_y),
        ("direction_z", direction_z),
        ("end1_closed", end1_closed), ("end1_reachable", end1_reachable),
        ("end2_closed", end2_closed), ("end2_reachable", end2_reachable),
        ("facet_count", facet_count), ("length", length), ("radius", radius)]

/-- The opening brace character, by code point. -/
def lbraceChar : Char := Char.ofNat 123

/-- The closing brace character, by code point. -/
def rbraceChar : Char := Char.ofNat 125

/-- Skip JSON whitespace. -/
def skipWs : List Char → List Char
  | c :: cs =>
    if c = ' ' ∨ c = '\t' ∨ c = '\n' ∨ c = '\r' then skipWs cs else c :: cs
  | [] => []

/-- Read a maximal run of decimal digits, returning the accumulated value,
the number of digits read, and the rest of the input. -/
def digitsAux : List Char → Nat → Nat → Nat × Nat × List Char
  | c :: cs, acc, n =>
    if c.isDigit then digitsAux cs (acc * 10 + (c.toNat - 48)) (n + 1)
    else (acc, n, c :: cs)
  | [], acc, n => (acc, n, [])

/-- Apply a decimal exponent to a base decimal number: a non-negative
exponent scales the mantissa, a negative one deepens the decimal scale. -/
def applyExp (base : DecNum) (negE : Bool) (e : Nat) : DecNum :=
  if negE then ⟨base.mant, base.exp + e⟩ else ⟨base.mant * pow10 e, base.exp⟩

/-- Parse a JSON number (integer part, optional fraction, optional exponent)
into an exact decimal. -/
def parseNumber (cs : List Char) : Except PyErr (PyVal × List Char) :=
  let (neg, cs1) :=
    match cs with
    | '-' :: rest => (true, rest)
    | _ => (false, cs)
  let (ip, ic, cs2) := digitsAux cs1 0 0
  if ic = 0 then .error .jsonDecodeError
  else
    let (base, cs3) : DecNum × List Char :=
      match cs2 with
      | '.' :: rest =>
        let (fp, fc, rest2) := digitsAux rest 0 0
        (⟨Int.ofNat (ip * 10 ^ fc + fp), fc⟩, rest2)
      | _ => (⟨Int.ofNat ip, 0⟩, cs2)
    let (val, cs4) : DecNum × List Char :=
      match cs3 with
      | 'e' :: rest =>
        match rest with
        | '-' :: rest2 =>
          let (e, _, rest3) := digitsAux rest2 0 0
          (applyExp base true e, rest3)
        | '+' :: rest2 =>
          let (e, _, rest3) := digitsAux rest2 0 0
          (applyExp base false e, rest3)
        | _ =>
          let (e, _, rest3) := digitsAux rest 0 0
          (applyExp base false e, rest3)
      | 'E' :: rest =>
        match rest with
        | '-' :: rest2 =>
          let (e, _, rest3) := digitsAux rest2 0 0
          (applyExp base true e, rest3)
        | '+' :: rest2 =>
          let (e, _, rest3) := digitsAux rest2 0 0
          (applyExp base false e, rest3)
        | _ =>
          let (e, _, rest3) := digitsAux rest 0 0
          (applyExp base false e, rest3)
      | _ => (base, cs3)
    .ok (.num (if neg then ⟨-val.mant, val.exp⟩ else val), cs4)

/-- Value of a hexadecimal digit. -/
def hexVal (c : Char) : Option Nat :=
  if c.isDigit then some (c.toNat - 48)
  else if 'a' ≤ c ∧ c ≤ 'f' then some (c.toNat - 87)
  else if 'A' ≤ c ∧ c ≤ 'F' then some (c.toNat - 55)
  else Option.none

/-- Parse the body of a JSON string (after the opening quote), handling the
standard escapes; unescaped control characters are rejected, as in Python. -/
def parseStringBody : List Char → String → Except PyErr (String × List Char)
  | [], _ => .error .jsonDecodeError
  | '"' :: rest, acc => .ok (acc, rest)
  | '\\' :: 'u' :: h1 :: h2 :: h3 :: h4 :: rest, acc =>
    match hexVal h1, hexVal h2, hexVal h3, hexVal h4 with
    | some a, some b, some c, some d =>
      parseStringBody rest (acc.push (Char.ofNat (((a * 16 + b) * 16 + c) * 16 + d)))
    | _, _, _, _ => .error .jsonDecodeError
  | '\\' :: e :: rest, acc =>
    if e = '"' then parseStringBody rest (acc.push '"')
    else if e = '\\' then parseStringBody rest (acc.push '\\')
    else if e = '/' then parseStringBody rest (acc.push '/')
    else if e = 'b' then parseStringBody rest (acc.push (Char.ofNat 8))
    else if e = 'f' then parseStringBody rest (acc.push (Char.ofNat 12))
    else if e = 'n' then parseStringBody rest (acc.push '\n')
    else if e = 'r' then parseStringBody rest (acc.push '\r')
    else if e = 't' then parseStringBody rest (acc.push '\t')
    else .error .jsonDecodeError
  | c :: rest, acc =>
    if c.toNat < 32 then .error .jsonDecodeError
    else parseStringBody rest (acc.push c)

mutual

/-- Fuel-indexed recursive-descent parser for a JSON value (the fragment of
json.loads the pipeline relies on; the nonstandard NaN and Infinity literals
are not modelled). -/
def parseValue : Nat → List Char → Except PyErr (PyVal × List Char)
  | 0, _ => .error .jsonDecodeError
  | fuel + 1, cs =>
    match cs with
    | 'n' :: 'u' :: 'l' :: 'l' :: rest => .ok (.none, rest)
    | 't' :: 'r' :: 'u' :: 'e' :: rest => .ok (.bool true, rest)
    | 'f' :: 'a' :: 'l' :: 's' :: 'e' :: rest => .ok (.bool false, rest)
    | '"' :: rest => do
      let sr ← parseStringBody rest ""
      .ok (.str sr.1, sr.2)
    | '[' :: rest =>
      match skipWs rest with
      | ']' :: rest2 => .ok (.list [], rest2)
      | rest2 => parseItems fuel rest2 []
    | c :: rest =>
      if c = lbraceChar then
        match skipWs rest with
        | c2 :: rest2 =>
          if c2 = rbraceChar then .ok (.dict [], rest2)
          else parseMembers fuel (c2 :: rest2) []
        | [] => .error .jsonDecodeError
      else if c.isDigit ∨ c = '-' then parseNumber (c :: rest)
      else .error .jsonDecodeError
    | [] => .error .jsonDecodeError

/-- Parse the elements of a nonempty JSON array. -/
def parseItems : Nat → List Char → List PyVal → Except PyErr (PyVal × List Char)
  | 0, _, _ => .error .jsonDecodeError
  | fuel + 1, cs, acc => do
    let vr ← parseValue fuel cs
    match skipWs vr.2 with
    | ',' :: rest2 => parseItems fuel (skipWs rest2) (acc ++ [vr.1])
    | ']' :: rest2 => .ok (.list (acc ++ [vr.1]), rest2)
    | _ => .error .jsonDecodeError

/-- Parse the members of a nonempty JSON object; duplicate keys update in
place, as in CPython. -/
def parseMembers : Nat → List Char → List (String × PyVal) →
    Except PyErr (PyVal × List Char)
  | 0, _, _ => .error .jsonDecodeError
  | fuel + 1, cs, acc =>
    match cs with
    | '"' :: rest => do
      let kr ← parseStringBody rest ""
      match skipWs kr.2 with
      | ':' :: rest2 => do
        let vr ← parseValue fuel (skipWs rest2)
        let acc2 := dictSet acc kr.1 vr.1
        match skipWs vr.2 with
        | ',' :: rest4 => parseMembers fuel (skipWs rest4) acc2
        | c :: rest4 =>
          if c = rbraceChar then .ok (.dict acc2, rest4) else .error .jsonDecodeError
        | [] => .error .jsonDecodeError
      | _ => .error .jsonDecodeError
    | _ => .error .jsonDecodeError

end

/-- Embedding of json.loads: parse one JSON value surrounded by optional
whitespace; anything else raises JSONDecodeError. -/
def json_loads (s : String) : Except PyErr PyVal := do
  let vr ← parseValue (4 * s.length + 16) (skipWs s.toList)
  if (skipWs vr.2).isEmpty then .ok vr.1 else .error .jsonDecodeError

/-- Python iteration over a value, as in the for loop of extract_holes:
lists yield their elements, strings their characters, dicts their keys;
iterating anything else raises TypeError. -/
def pyIter : PyVal → Except PyErr (List PyVal)
  | .list xs => .ok xs
  | .str s => .ok (s.toList.map (fun c => .str (String.mk [c])))
  | .dict kvs => .ok (kvs.map (fun kv => .str kv.1))
  | _ => .error .typeError

/-- Row-wise traversal with exception propagation: the model of applying a
fallible function to every element in order (a pandas apply, or a Python for
loop accumulating results), stopping at the first raised exception. -/
def mapE {α β : Type} (f : α → Except PyErr β) : List α → Except PyErr (List β)
  | [] => .ok []
  | x :: xs => do
    let y ← f x
    let ys ← mapE f xs
    .ok (y :: ys)

/-- One step of the defaultdict(list) accumulation in extract_holes:
append a value to the list for a key, creating the key if absent. -/
def dd_append (dout : List (String × List PyVal)) (k : String) (v : PyVal) :
    List (String × List PyVal) :=
  if dout.any (fun kl => kl.1 == k) then
    dout.map (fun kl => if kl.1 == k then (kl.1, kl.2 ++ [v]) else kl)
  else dout ++ [(k, [v])]

/-- Fold one extracted hole record into the accumulated dict of features
(the inner for loop of extract_holes). -/
def combStep (dout : List (String × List PyVal)) (d : Row) :
    List (String × List PyVal) :=
  d.foldl (fun acc kv => dd_append acc kv.1 kv.2) dout

/-- Combine the extracted records of all holes of one part into a dict of
parallel feature lists (the outer for loop of extract_holes). -/
def combine (ds : List Row) : List (String × List PyVal) :=
  ds.foldl combStep []

/-- Embedding of `extract_holes(holes)` (pipeline.py lines 76-96): a null
field yields the empty dict; otherwise the field is parsed as JSON and every
hole in the resulting iterable is extracted, any exception propagating. -/
def extract_holes (holes : Option String) :
    Except PyErr (List (String × List PyVal)) :=
  match holes with
  | Option.none => .ok []
  | some s => do
    let v ← json_loads s
    let hs ← pyIter v
    let ds ← mapE extract_hole hs
    .ok (combine ds)

/-- One row of the parts dataframe: its zero-based index and its holes field
(null or a string).  Other part attributes are not touched by the transform. -/
structure PartRow where
  part_index : Nat
  holes : Option String

/-- The predicate of `dropna(axis=0, how='all')`: a row is kept when at least
one of its values is non-null. -/
def keepRow (r : Row) : Bool :=
  !(r.all (fun kv => kv.2.isNull))

/-- Accumulate the keys of one dict into a running column list, keeping
first-appearance order. -/
def keysFold (acc : List String) (ks : List String) : List String :=
  ks.foldl (fun a k => if a.contains k then a else a ++ [k]) acc

/-- Column set of the dataframe obtained from a series of dicts by
`apply(pd.Series)`: the union of the keys, in order of first appearance. -/
def colsUnion (douts : List (List (String × List PyVal))) : List String :=
  douts.foldl (fun acc dout => keysFold acc (dout.map Prod.fst)) []

/-- Lookup of a feature list in one part's extracted dict. -/
def lookupDD (dout : List (String × List PyVal)) (k : String) :
    Option (List PyVal) :=
  (dout.find? (fun kl => kl.1 == k)).map (fun kl => kl.2)

/-- The multi-column `explode` of one part's row, after `apply(pd.Series)`
filled the columns (a key missing from the dict becomes a scalar null cell):
if every cell is a scalar the row stays as a single all-null row; list cells
of unequal lengths raise ValueError; lists of common length n explode into n
rows (n = 0 degenerates to one all-null row, as pandas yields NaN there). -/
def explodePart (cols : List String) (dout : List (String × List PyVal)) :
    Except PyErr (List Row) :=
  let cells := cols.map (fun k => (k, lookupDD dout k))
  match (cells.filterMap (fun c => c.2)).head? with
  | Option.none => .ok [cols.map (fun k => (k, PyVal.none))]
  | some l0 =>
    if cells.all (fun c =>
        match c.2 with
        | some l => l.length == l0.length
        | Option.none => false) then
      if l0.length == 0 then .ok [cols.map (fun k => (k, PyVal.none))]
      else
        .ok ((List.range l0.length).map (fun m =>
          cells.map (fun c => (c.1, (c.2.getD []).getD m PyVal.none))))
    else .error .valueError

/-- A pandas integer cell holding a part index. -/
def natVal (n : Nat) : PyVal := .num ⟨Int.ofNat n, 0⟩

/-- Embedding of `create_holes_df(df)` (pipeline.py lines 98-123): extract
every part's holes dict, spread the dicts into columns, explode the parallel
lists into one row per hole (keeping the part index), drop rows whose every
feature is null, then reset the index — the part index becomes the leading
`part_index` column and the new positional index (modelled by `enum`) is the
`hole_index`.  An empty overall column set makes the multi-column explode
raise ValueError. -/
def create_holes_df (parts : List PartRow) : Except PyErr (List (Nat × Row)) := do
  let douts ← mapE (fun p => extract_holes p.holes) parts
  let cols := colsUnion douts
  if cols.isEmpty then .error .valueError
  else do
    let rowss ← mapE (fun pq => do
      let rs ← explodePart cols pq.2
      pure (rs.map (fun r => (pq.1.part_index, r)))) (parts.zip douts)
    let kept := rowss.flatten.filter (fun pr => keepRow pr.2)
    pure ((kept.map (fun pr =>
      (("part_index", natVal pr.1) : String × PyVal) :: pr.2)).enum)

/-- Numeric view of a Python value: numbers are themselves, booleans coerce
to 0 and 1 (Python bool is an int subtype); everything else is non-numeric. -/
def pyNum : PyVal → Option DecNum
  | .num q => some q
  | .bool b => some (if b then ⟨1, 0⟩ else ⟨0, 0⟩)
  | _ => Option.none

/-- Python multiplication of a value by a non-negative int literal: numbers
and booleans multiply numerically, strings and lists repeat; multiplying
`None` or a dict raises TypeError. -/
def pyMulNat (v : PyVal) (n : Nat) : Except PyErr PyVal :=
  match v with
  | .num q => .ok (.num (q.mulNat n))
  | .bool b => .ok (.num (DecNum.mulNat (if b then ⟨1, 0⟩ else ⟨0, 0⟩) n))
  | .str s => .ok (.str (String.join (List.replicate n s)))
  | .list xs => .ok (.list (List.flatten (List.replicate n xs)))
  | _ => .error .typeError

/-- Python ordering a > b on the scalar fragment: numeric values (numbers and
booleans) compare numerically, strings compare lexicographically; comparing
`None`, or a number against a string, raises TypeError.  Elementwise
container-against-container ordering is outside the modelled fragment (hole
features are scalars). -/
def pyGt (a b : PyVal) : Except PyErr Bool :=
  match pyNum a, pyNum b with
  | some x, some y => .ok (DecNum.blt y x)
  | _, _ =>
    match a, b with
    | .str x, .str y => .ok (decide (y < x))
    | _, _ => .error .typeError

/-- Embedding of `has_warning(length, radius)` (pipeline.py lines 125-135):
the Python expression `length > radius * 2 * 10`. -/
def has_warning (len rad : PyVal) : Except PyErr Bool := do
  let d1 ← pyMulNat rad 2
  let d2 ← pyMulNat d1 10
  pyGt len d2

/-- Embedding of `has_error(length, radius)` (pipeline.py lines 137-147):
the Python expression `length > radius * 2 * 40`. -/
def has_error (len rad : PyVal) : Except PyErr Bool := do
  let d1 ← pyMulNat rad 2
  let d2 ← pyMulNat d1 40
  pyGt len d2

/-- Series cell access `row[k]` on a dataframe row: KeyError when absent. -/
def rowGet (r : Row) (k : String) : Except PyErr PyVal :=
  match dictGet r k with
  | some v => .ok v
  | Option.none => .error .keyError

/-- The warning flag column name. -/
def flagW : String := "has_unreachable_hole_warning"

/-- The error flag column name. -/
def flagE : String := "has_unreachable_hole_error"

/-- Embedding of `create_unreachable_df(df_holes)` (pipeline.py lines
149-168): compute the two flag columns row by row (each apply propagating the
first exception), assign them onto the holes dataframe, select them into the
unreachable dataframe, and drop them from the holes dataframe; both outputs
keep the hole_index of their rows. -/
def create_unreachable_df (df_holes : List (Nat × Row)) :
    Except PyErr (List (Nat × Row) × List (Nat × Row)) := do
  let warns ← mapE (fun ir => do
    let l ← rowGet ir.2 "length"
    let r ← rowGet ir.2 "radius"
    has_warning l r) df_holes
  let rows1 := (df_holes.zip warns).map
    (fun x => (x.1.1, dictSet x.1.2 flagW (.bool x.2)))
  let errs ← mapE (fun ir => do
    let l ← rowGet ir.2 "length"
    let r ← rowGet ir.2 "radius"
    has_error l r) rows1
  let rows2 := (rows1.zip errs).map
    (fun x => (x.1.1, dictSet x.1.2 flagE (.bool x.2)))
  let unreach ← mapE (fun ir => do
    let w ← rowGet ir.2 flagW
    let e ← rowGet ir.2 flagE
    pure (ir.1, ([(flagW, w), (flagE, e)] : Row))) rows2
  let holesOut := rows2.map (fun ir =>
    (ir.1, ir.2.filter (fun kv => kv.1 != flagW && kv.1 != flagE)))
  pure (holesOut, unreach)

/-- Embedding of `transform(df)` (pipeline.py lines 170-182). -/
def transform (parts : List PartRow) :
    Except PyErr (List (Nat × Row) × List (Nat × Row)) := do
  let dfh ← create_holes_df parts
  create_unreachable_df dfh

/-- Observation helper for stating theorems: the part index carried by a hole
row, read off its leading `part_index` column. -/
def rowPartIdx (r : Row) : Option DecNum :=
  match r with
  | ("part_index", PyVal.num q) :: _ => some q
  | _ => Option.none

/-- Observation helper for stating theorems: the per-descriptor survival
predicate of the dropna safety net — a descriptor contributes a row to the
final holes table exactly when its extraction succeeds with at least one
non-null feature. -/
def descriptorKept (d : PyVal) : Bool :=
  match extract_hole d with
  | .ok r => keepRow r
  | .error _ => false

/-- Proof-side description of the transpose that extract_holes performs: the
column list of a block of uniform rows, one list per key position, each
holding that position's value from every row. -/
def colsOf (K : List String) (rds : List Row) : List (List PyVal) :=
  (List.range K.length).map (fun j =>
    rds.map (fun d => (d.getD j ("", PyVal.none)).2))

/-! ### Generic lemmas about Except, mapE and lists -/

theorem bind_ok {α β : Type} {a : Except PyErr α} {f : α → Except PyErr β}
    {b : β} : a >>= f = Except.ok b ↔ ∃ x, a = Except.ok x ∧ f x = Except.ok b := by
  cases a <;> simp [Bind.bind, Except.bind]

theorem bind_error {α β : Type} {a : Except PyErr α} {f : α → Except PyErr β}
    {e : PyErr} : a >>= f = Except.error e ↔
      a = Except.error e ∨ ∃ x, a = Except.ok x ∧ f x = Except.error e := by
  cases a <;> simp [Bind.bind, Except.bind]

theorem mapE_cons_ok {α β : Type} {f : α → Except PyErr β} {x : α} {xs : List α}
    {ys : List β} : mapE f (x :: xs) = Except.ok ys ↔
      ∃ y zs, f x = Except.ok y ∧ mapE f xs = Except.ok zs ∧ ys = y :: zs := by
  constructor
  · intro h
    rw [mapE, bind_ok] at h
    rcases h with ⟨y, hy, h2⟩
    rw [bind_ok] at h2
    rcases h2 with ⟨zs, hzs, h3⟩
    refine ⟨y, zs, hy, hzs, ?_⟩
    simpa [pure, Except.pure] using h3.symm
  · rintro ⟨y, zs, hy, hzs, rfl⟩
    rw [mapE, bind_ok]
    exact ⟨y, hy, by rw [bind_ok]; exact ⟨zs, hzs, rfl⟩⟩

theorem mapE_ok_length {α β : Type} {f : α → Except PyErr β} :
    ∀ {l : List α} {ys : List β}, mapE f l = Except.ok ys → ys.length = l.length := by
  intro l
  induction l with
  | nil => intro ys h; simp [mapE] at h; simp [← h]
  | cons x xs ih =>
    intro ys h
    rcases mapE_cons_ok.mp h with ⟨y, zs, _, hzs, rfl⟩
    simp [ih hzs]

theorem mapE_ok_get {α β : Type} {f : α → Except PyErr β} :
    ∀ {l : List α} {ys : List β}, mapE f l = Except.ok ys →
      ∀ i (h1 : i < l.length) (h2 : i < ys.length),
        f (l.get ⟨i, h1⟩) = Except.ok (ys.get ⟨i, h2⟩) := by
  intro l
  induction l with
  | nil => intro ys h i h1; exact absurd h1 (by simp)
  | cons x xs ih =>
    intro ys h i h1 h2
    rcases mapE_cons_ok.mp h with ⟨y, zs, hy, hzs, rfl⟩
    cases i with
    | zero => simpa using hy
    | succ j => exact ih hzs j (by simpa using h1) (by simpa using h2)

theorem mapE_ok_of_mem {α β : Type} {f : α → Except PyErr β} :
    ∀ {l : List α} {ys : List β}, mapE f l = Except.ok ys →
      ∀ x ∈ l, ∃ y, f x = Except.ok y := by
  intro l
  induction l with
  | nil => intro ys _ x hx; exact absurd hx (by simp)
  | cons a xs ih =>
    intro ys h x hx
    rcases mapE_cons_ok.mp h with ⟨y, zs, hy, hzs, rfl⟩
    rcases List.mem_cons.mp hx with rfl | hx2
    · exact ⟨y, hy⟩
    · exact ih hzs x hx2

theorem mapE_error_of_mem {α β : Type} {f : α → Except PyErr β} :
    ∀ {l : List α} {x : α} {e : PyErr}, x ∈ l → f x = Except.error e →
      ∃ e2, mapE f l = Except.error e2 := by
  intro l
  induction l with
  | nil => intro x e hx; exact absurd hx (by simp)
  | cons a xs ih =>
    intro x e hx hfx
    rcases List.mem_cons.mp hx with rfl | hx2
    · exact ⟨e, by simp [mapE, hfx, Bind.bind, Except.bind]⟩
    · cases ha : f a with
      | error e3 => exact ⟨e3, by simp [mapE, ha, Bind.bind, Except.bind]⟩
      | ok y =>
        rcases ih hx2 hfx with ⟨e2, h2⟩
        exact ⟨e2, by simp [mapE, ha, h2, Bind.bind, Except.bind]⟩

theorem mapE_countP {α β : Type} {f : α → Except PyErr β} (p : β → Bool) :
    ∀ {l : List α} {ys : List β}, mapE f l = Except.ok ys →
      ys.countP p = l.countP (fun x =>
        match f x with
        | .ok y => p y
        | .error _ => false) := by
  intro l
  induction l with
  | nil => intro ys h; simp [mapE] at h; subst h; rfl
  | cons a xs ih =>
    intro ys h
    rcases mapE_cons_ok.mp h with ⟨y, zs, hy, hzs, rfl⟩
    simp [List.countP_cons, ih hzs, hy]

theorem filter_map_comm {α β : Type} (g : α → β) (p : β → Bool) :
    ∀ (l : List α), (l.map g).filter p = (l.filter (fun x => p (g x))).map g := by
  intro l
  induction l with
  | nil => rfl
  | cons x xs ih =>
    by_cases h : p (g x) <;> simp [List.filter_cons, h, ih]

theorem filter_flatten_eq {α : Type} (p : α → Bool) :
    ∀ (ls : List (List α)), ls.flatten.filter p = (ls.map (fun l => l.filter p)).flatten := by
  intro ls
  induction ls with
  | nil => rfl
  | cons l ls ih => simp [List.filter_append, ih]

theorem map_flatten_eq {α β : Type} (g : α → β) :
    ∀ (ls : List (List α)), ls.flatten.map g = (ls.map (fun l => l.map g)).flatten := by
  intro ls
  induction ls with
  | nil => rfl
  | cons l ls ih => simp [ih]

theorem length_filter_enumFrom {α : Type} (q : α → Bool) :
    ∀ (X : List α) (n : Nat),
      ((X.enumFrom n).filter (fun ir => q ir.2)).length = (X.filter q).length := by
  intro X
  induction X with
  | nil => intro n; rfl
  | cons x xs ih =>
    intro n
    by_cases h : q x <;> simp [List.enumFrom, List.filter_cons, h, ih]

theorem zip_fst_snd {α β : Type} :
    ∀ (l : List (α × β)), (l.map Prod.fst).zip (l.map Prod.snd) = l := by
  intro l
  induction l with
  | nil => rfl
  | cons x xs ih => simp [List.zip_cons_cons, ih]

theorem mulNat_toRat (d : DecNum) (n : Nat) :
    (d.mulNat n).toRat = d.toRat * n := by
  simp only [DecNum.mulNat, DecNum.toRat, Int.ofNat_eq_natCast]
  push_cast
  ring

theorem blt_toRat (a b : DecNum) :
    DecNum.blt a b = decide (a.toRat < b.toRat) := by
  rw [DecNum.blt, decide_eq_decide, DecNum.toRat, DecNum.toRat,
    div_lt_div_iff₀ (by positivity) (by positivity), pow10, pow10]
  constructor <;> intro h <;> exact_mod_cast h

/-! ### Claims about feature extraction and the risk flags -/

/-- Claim C1, counterexample: on the descriptor with feature `center` present
but null, looking up subfeature `x` does not yield null — a TypeError
propagates out of extract_hole_feature (only KeyError is caught), refuting
the claim that a null feature value yields null with no exception. -/
theorem extract_feature_null_raises :
    extract_hole_feature (PyVal.dict [("center", PyVal.none)]) "center"
      (some "x") = Except.error PyErr.typeError := rfl

/-- Claim C1 (amended): for a descriptor dict and any (feature, subfeature)
pair, if the subfeature is specified then a missing feature yields null, a
dict-valued feature yields its subfeature entry (null when the subfeature is
absent from it), and a feature present with any non-dict value — in
particular null — raises TypeError; if no subfeature is specified the lookup
yields the feature's value, or null when it is absent, and never raises. -/
theorem extract_hole_feature_spec (kvs : List (String × PyVal)) (f sub : String) :
    (extract_hole_feature (PyVal.dict kvs) f (some sub) =
      match dictGet kvs f with
      | Option.none => Except.ok PyVal.none
      | some (PyVal.dict inner) => Except.ok ((dictGet inner sub).getD PyVal.none)
      | some _ => Except.error PyErr.typeError) ∧
    extract_hole_feature (PyVal.dict kvs) f Option.none =
      Except.ok ((dictGet kvs f).getD PyVal.none) := by
  constructor
  · rcases h : dictGet kvs f with _ | v
    · simp [extract_hole_feature, getItem, h, Bind.bind, Except.bind]
    · cases v <;>
        simp [extract_hole_feature, getItem, h, Bind.bind, Except.bind]
      case dict inner =>
        rcases h2 : dictGet inner sub with _ | w <;> simp [h2]
  · rcases h : dictGet kvs f with _ | v <;>
      simp [extract_hole_feature, getItem, h]

/-- Claim C3: the warning flag is the Python comparison
length > radius * 2 * 10 and the error flag is length > radius * 2 * 40;
on the numeric inputs of the spec, (length 100, radius 4) yields warning
without error, and (length 500, radius 4) yields both. -/
theorem risk_thresholds_spec :
    (∀ lq rq : DecNum,
        has_warning (.num lq) (.num rq) =
          Except.ok (decide (rq.toRat * 2 * 10 < lq.toRat)) ∧
        has_error (.num lq) (.num rq) =
          Except.ok (decide (rq.toRat * 2 * 40 < lq.toRat))) ∧
      has_warning (.num ⟨100, 0⟩) (.num ⟨4, 0⟩) = Except.ok true ∧
      has_error (.num ⟨100, 0⟩) (.num ⟨4, 0⟩) = Except.ok false ∧
      has_warning (.num ⟨500, 0⟩) (.num ⟨4, 0⟩) = Except.ok true ∧
      has_error (.num ⟨500, 0⟩) (.num ⟨4, 0⟩) = Except.ok true := by
  have key10 : ∀ d l : DecNum,
      DecNum.blt ((d.mulNat 2).mulNat 10) l = decide (d.toRat * 2 * 10 < l.toRat) := by
    intro d l
    rw [blt_toRat, decide_eq_decide, mulNat_toRat, mulNat_toRat]
    push_cast
    exact Iff.rfl
  have key40 : ∀ d l : DecNum,
      DecNum.blt ((d.mulNat 2).mulNat 40) l = decide (d.toRat * 2 * 40 < l.toRat) := by
    intro d l
    rw [blt_toRat, decide_eq_decide, mulNat_toRat, mulNat_toRat]
    push_cast
    exact Iff.rfl
  refine ⟨fun lq rq => ⟨?_, ?_⟩, rfl, rfl, rfl, rfl⟩
  · show Except.ok (DecNum.blt ((rq.mulNat 2).mulNat 10) lq) = _
    rw [key10]
  · show Except.ok (DecNum.blt ((rq.mulNat 2).mulNat 40) lq) = _
    rw [key40]

/-- Claim C9: evaluating either risk flag on a hole row whose length or
radius is null raises TypeError rather than yielding null or false, and the
classification of any holes table containing such a row fails with an
exception. -/
theorem null_numeric_flags_raise (l r : PyVal)
    (h : l = PyVal.none ∨ r = PyVal.none) :
    has_warning l r = Except.error PyErr.typeError ∧
    has_error l r = Except.error PyErr.typeError ∧
    ∀ (dfh : List (Nat × Row)) (ir : Nat × Row), ir ∈ dfh →
      rowGet ir.2 "length" = Except.ok l → rowGet ir.2 "radius" = Except.ok r →
      ∃ e, create_unreachable_df dfh = Except.error e := by
  have hflags : has_warning l r = Except.error PyErr.typeError ∧
      has_error l r = Except.error PyErr.typeError := by
    rcases h with rfl | rfl
    · cases r <;>
        simp [has_warning, has_error, pyMulNat, pyGt, pyNum, Bind.bind, Except.bind]
    · cases l <;>
        simp [has_warning, has_error, pyMulNat, pyGt, pyNum, Bind.bind, Except.bind]
  refine ⟨hflags.1, hflags.2, ?_⟩
  intro dfh ir hmem hl hr
  have helem : (fun ir2 : Nat × Row => do
      let lv ← rowGet ir2.2 "length"
      let rv ← rowGet ir2.2 "radius"
      has_warning lv rv) ir = Except.error PyErr.typeError := by
    show (do
      let lv ← rowGet ir.2 "length"
      let rv ← rowGet ir.2 "radius"
      has_warning lv rv) = Except.error PyErr.typeError
    simp [hl, hr, hflags.1, Bind.bind, Except.bind]
  rcases @mapE_error_of_mem (Nat × Row) Bool (fun ir2 : Nat × Row => do
      let lv ← rowGet ir2.2 "length"
      let rv ← rowGet ir2.2 "radius"
      has_warning lv rv) dfh ir PyErr.typeError hmem helem with ⟨e2, hm⟩
  refine ⟨e2, ?_⟩
  unfold create_unreachable_df
  rw [hm]
  rfl

/-- Claim C9, witness: a concrete holes table with a null length fails
classification. -/
theorem null_numeric_flags_raise_w :
    has_warning PyVal.none (PyVal.num ⟨4, 0⟩) = Except.error PyErr.typeError ∧
    ∃ e, create_unreachable_df
      [(0, [("length", PyVal.none), ("radius", PyVal.num ⟨4, 0⟩)])] =
        Except.error e := by
  have h := null_numeric_flags_raise PyVal.none (PyVal.num ⟨4, 0⟩) (Or.inl rfl)
  exact ⟨h.1, h.2.2 _ (0, [("length", PyVal.none), ("radius", PyVal.num ⟨4, 0⟩)])
    (by simp) rfl rfl⟩

/-- Claim C6: a non-null holes field that fails to parse as JSON makes
extract_holes propagate the parse error, and the whole holes-table
construction fails with an exception for any parts table containing such a
part. -/
theorem malformed_json_fatal :
    (∀ (s : String) (e : PyErr), json_loads s = Except.error e →
        extract_holes (some s) = Except.error e) ∧
    ∀ (parts : List PartRow) (p : PartRow) (s : String) (e : PyErr),
      p ∈ parts → p.holes = some s → json_loads s = Except.error e →
      ∃ e2, create_holes_df parts = Except.error e2 := by
  constructor
  · intro s e h
    simp [extract_holes, h, Bind.bind, Except.bind]
  · intro parts p s e hmem hp hj
    have hel : (fun q : PartRow => extract_holes q.holes) p = Except.error e := by
      show extract_holes p.holes = Except.error e
      rw [hp]
      simp [extract_holes, hj, Bind.bind, Except.bind]
    rcases @mapE_error_of_mem PartRow (List (String × List PyVal))
      (fun q : PartRow => extract_holes q.holes) parts p e hmem hel with ⟨e2, hm⟩
    refine ⟨e2, ?_⟩
    unfold create_holes_df
    rw [hm]
    rfl

/-- Claim C6, witness: the concrete unparseable holes field aborts the run. -/
theorem malformed_json_fatal_w :
    json_loads "not json" = Except.error PyErr.jsonDecodeError ∧
    ∃ e2, create_holes_df [⟨0, some "not json"⟩] = Except.error e2 :=
  ⟨rfl, malformed_json_fatal.2 [⟨0, some "not json"⟩] ⟨0, some "not json"⟩
    "not json" PyErr.jsonDecodeError (by simp) rfl rfl⟩

theorem findSome?_none_of {α β : Type} :
    ∀ l : List α, List.findSome? (fun _ => (Option.none : Option β)) l = Option.none := by
  intro l
  induction l with
  | nil => rfl
  | cons x xs ih => simp [List.findSome?_cons, ih]

theorem nullRow_allNull (cols : List String) :
    (cols.map (fun k => (k, PyVal.none))).all (fun kv => kv.2.isNull) = true := by
  induction cols with
  | nil => rfl
  | cons c cs ih => simp [List.all_cons, ih, PyVal.isNull]

theorem keepRow_nullRow (cols : List String) :
    keepRow (cols.map (fun k => (k, PyVal.none))) = false := by
  simp [keepRow, nullRow_allNull]

theorem explodePart_empty (cols : List String) :
    explodePart cols [] = Except.ok [cols.map (fun k => (k, PyVal.none))] := by
  simp [explodePart, lookupDD, List.filterMap_map, Function.comp_def,
    findSome?_none_of]

theorem extract_hole_ok_shape (hole : PyVal) (d : Row)
    (h : extract_hole hole = Except.ok d) : d.map Prod.fst = featureNames := by
  simp only [extract_hole, bind_ok, pure, Except.pure, Except.ok.injEq] at h
  obtain ⟨v1, _, v2, _, v3, _, v4, _, v5, _, v6, _, v7, _, v8, _, v9, _, v10, _,
    v11, _, v12, _, v13, _, hd⟩ := h
  subst hd
  rfl

/-- Claim C10, counterexample: extraction does not return a record for every
descriptor object — on the descriptor whose `center` key is null it raises
TypeError instead of returning. -/
theorem extract_hole_raises_cex :
    extract_hole (PyVal.dict [("center", PyVal.none)]) =
      Except.error PyErr.typeError := rfl

/-- Claim C10 (amended): whenever per-hole extraction returns at all (it can
instead raise, e.g. on a null-valued `center`), the returned record has
exactly the 13 feature keys, in a fixed order, regardless of which keys the
descriptor contains — so every hole row in the output has the same column
set. -/
theorem extract_hole_keys (hole : PyVal) (d : Row)
    (h : extract_hole hole = Except.ok d) : d.map Prod.fst = featureNames :=
  extract_hole_ok_shape hole d h

/-- Claim C10, witness: the empty descriptor extracts to a record with the 13
feature keys. -/
theorem extract_hole_keys_w :
    ∃ d, extract_hole (PyVal.dict []) = Except.ok d ∧
      d.map Prod.fst = featureNames := by
  refine ⟨featureNames.map (fun k => (k, PyVal.none)), rfl, ?_⟩
  exact extract_hole_keys (PyVal.dict []) _ rfl

/-- Claim C5, counterexample: an empty-string holes field is not tolerated —
it is not null for pd.isnull, so json.loads raises and the run fails,
refuting the claim for "empty" holes fields. -/
theorem empty_string_holes_raises :
    create_holes_df [⟨0, some ""⟩] = Except.error PyErr.jsonDecodeError := rfl

/-- Claim C5 (amended): a part whose holes field is null or the empty JSON
array "[]" contributes zero rows and raises nothing: its extraction succeeds
with the empty dict, and the single all-null row the empty dict turns into is
removed by the dropna filter, for any column set; an empty-string holes
field, by contrast, raises a parse error. -/
theorem no_hole_parts_zero_rows (p : PartRow)
    (h : p.holes = Option.none ∨ p.holes = some "[]") :
    extract_holes p.holes = Except.ok [] ∧
    ∀ cols : List String,
      ∃ rs, explodePart cols [] = Except.ok rs ∧ rs.filter keepRow = [] := by
  constructor
  · rcases h with h | h <;> rw [h] <;> rfl
  · intro cols
    refine ⟨[cols.map (fun k => (k, PyVal.none))], explodePart_empty cols, ?_⟩
    simp [List.filter_cons, keepRow_nullRow]

/-- Claim C5, witness: the null-holes part contributes zero rows without
raising. -/
theorem no_hole_parts_zero_rows_w :
    extract_holes Option.none = Except.ok [] ∧
    ∃ rs, explodePart featureNames [] = Except.ok rs ∧
      rs.filter keepRow = [] := by
  have h := no_hole_parts_zero_rows ⟨0, Option.none⟩ (Or.inl rfl)
  exact ⟨h.1, h.2 featureNames⟩

/-! ### The defaultdict accumulation of extract_holes -/

theorem dd_append_absent (dout : List (String × List PyVal)) (k : String)
    (v : PyVal) (h : ∀ kl ∈ dout, kl.1 ≠ k) :
    dd_append dout k v = dout ++ [(k, [v])] := by
  have hany : dout.any (fun kl => kl.1 == k) = false := by
    simp only [List.any_eq_false, beq_iff_eq]
    exact h
  simp [dd_append, hany]

theorem dd_append_present (A B : List (String × List PyVal)) (k : String)
    (l : List PyVal) (v : PyVal)
    (hA : ∀ kl ∈ A, kl.1 ≠ k) (hB : ∀ kl ∈ B, kl.1 ≠ k) :
    dd_append (A ++ (k, l) :: B) k v = A ++ (k, l ++ [v]) :: B := by
  have hany : (A ++ (k, l) :: B).any (fun kl => kl.1 == k) = true := by
    simp only [List.any_eq_true]
    exact ⟨(k, l), by simp⟩
  have hAmap : A.map (fun kl => if kl.1 == k then (kl.1, kl.2 ++ [v]) else kl) = A := by
    rw [List.map_eq_map_iff.mpr, List.map_id]
    intro kl hkl
    simp [hA kl hkl]
  have hBmap : B.map (fun kl => if kl.1 == k then (kl.1, kl.2 ++ [v]) else kl) = B := by
    rw [List.map_eq_map_iff.mpr, List.map_id]
    intro kl hkl
    simp [hB kl hkl]
  simp only [dd_append, hany, if_true, List.map_append, List.map_cons]
  rw [hAmap, hBmap]
  simp

theorem combStep_create (d : Row) :
    ∀ pre : List (String × List PyVal),
      (∀ kl ∈ pre, ∀ kv ∈ d, kl.1 ≠ kv.1) → (d.map Prod.fst).Nodup →
      combStep pre d = pre ++ d.map (fun kv => (kv.1, [kv.2])) := by
  induction d with
  | nil => intro pre _ _; simp [combStep]
  | cons kv0 rest ih =>
    intro pre hdisj hnd
    have h1 : dd_append pre kv0.1 kv0.2 = pre ++ [(kv0.1, [kv0.2])] :=
      dd_append_absent pre kv0.1 kv0.2
        (fun kl hkl => hdisj kl hkl kv0 (List.mem_cons_self kv0 rest))
    have hstep : combStep pre (kv0 :: rest)
        = combStep (pre ++ [(kv0.1, [kv0.2])]) rest := by
      simp only [combStep, List.foldl_cons, h1]
    rw [hstep, ih]
    · simp
    · intro kl hkl kv hkv
      rcases List.mem_append.mp hkl with hin | hin
      · exact hdisj kl hin kv (List.mem_cons_of_mem kv0 hkv)
      · have : kl = (kv0.1, [kv0.2]) := by simpa using hin
        subst this
        simp only [List.map_cons, List.nodup_cons] at hnd
        intro hc
        exact hnd.1 (hc ▸ List.mem_map_of_mem Prod.fst hkv)
    · simp only [List.map_cons, List.nodup_cons] at hnd
      exact hnd.2

theorem combStep_append :
    ∀ (K : List String) (vs : List PyVal) (ls : List (List PyVal))
      (pre : List (String × List PyVal)),
      K.Nodup → vs.length = K.length → ls.length = K.length →
      (∀ kl ∈ pre, ∀ k ∈ K, kl.1 ≠ k) →
      combStep (pre ++ K.zip ls) (K.zip vs)
        = pre ++ K.zip (List.zipWith (fun l v => l ++ [v]) ls vs) := by
  intro K
  induction K with
  | nil => intro vs ls pre _ _ _ _; simp [combStep]
  | cons k K ih =>
    intro vs ls pre hnd hvs hls hdisj
    rcases vs with _ | ⟨v, vs⟩
    · simp at hvs
    rcases ls with _ | ⟨l, ls⟩
    · simp at hls
    have hnd2 := List.nodup_cons.mp hnd
    have hA : ∀ kl ∈ pre, kl.1 ≠ k := fun kl hkl => hdisj kl hkl k (by simp)
    have hB : ∀ kl ∈ K.zip ls, kl.1 ≠ k := by
      intro kl hkl hc
      have hmem : kl.1 ∈ K := by
        rcases kl with ⟨a, b⟩
        exact (List.of_mem_zip hkl).1
      rw [hc] at hmem
      exact hnd2.1 hmem
    have hstep : combStep (pre ++ (k, l) :: K.zip ls) ((k, v) :: K.zip vs)
        = combStep ((pre ++ [(k, l ++ [v])]) ++ K.zip ls) (K.zip vs) := by
      simp only [combStep, List.foldl_cons]
      rw [dd_append_present pre (K.zip ls) k l v hA hB]
      simp
    simp only [List.zip_cons_cons, List.zipWith_cons_cons]
    rw [hstep, ih vs ls (pre ++ [(k, l ++ [v])]) hnd2.2 (by simpa using hvs)
      (by simpa using hls) ?_]
    · simp
    · intro kl hkl k2 hk2
      rcases List.mem_append.mp hkl with hin | hin
      · exact hdisj kl hin k2 (List.mem_cons_of_mem k hk2)
      · have hkl2 : kl = (k, l ++ [v]) := by simpa using hin
        subst hkl2
        intro hc
        simp only at hc
        subst hc
        exact hnd2.1 hk2

theorem combine_append_one (rds : List Row) (d : Row) :
    combine (rds ++ [d]) = combStep (combine rds) d := by
  simp [combine, List.foldl_append]

theorem colsOf_length (K : List String) (rds : List Row) :
    (colsOf K rds).length = K.length := by
  simp [colsOf]

theorem colsOf_getElem (K : List String) (rds : List Row) (j : Nat)
    (hj : j < (colsOf K rds).length) :
    (colsOf K rds).get ⟨j, hj⟩
      = rds.map (fun d => (d.getD j ("", PyVal.none)).2) := by
  simp [colsOf]

theorem combine_cols (K : List String) (hnd : K.Nodup) :
    ∀ rds : List Row, rds ≠ [] → (∀ d ∈ rds, d.map Prod.fst = K) →
      combine rds = K.zip (colsOf K rds) := by
  intro rds
  induction rds using List.reverseRecOn with
  | nil => intro h; exact absurd rfl h
  | append_singleton rds d ih =>
    intro _ hkeys
    have hk : d.map Prod.fst = K := hkeys d (by simp)
    subst hk
    have hdlen : (d.map Prod.fst).length = d.length := List.length_map d Prod.fst
    rcases eq_or_ne rds [] with rfl | hne
    · simp only [List.nil_append]
      have h1 : combine [d] = combStep [] d := by simp [combine]
      rw [h1, combStep_create d [] (by simp) hnd, List.nil_append]
      apply List.ext_get
      · simp [colsOf]
      · intro j hj1 hj2
        have hjd : j < d.length := by simpa using hj1
        have hjc : j < (colsOf (d.map Prod.fst) [d]).length := by
          simp [colsOf, hjd]
        simp only [List.get_eq_getElem, List.getElem_map, List.getElem_zip]
        rw [← List.get_eq_getElem (colsOf (d.map Prod.fst) [d]) ⟨j, hjc⟩,
          colsOf_getElem]
        simp [List.getD_eq_getElem?_getD, List.getElem?_eq_getElem hjd]
    · have h1 : combine (rds ++ [d]) = combStep (combine rds) d :=
        combine_append_one rds d
      rw [h1, ih hne (fun d2 hd2 => hkeys d2 (by simp [hd2]))]
      have hstep := combStep_append (d.map Prod.fst) (d.map Prod.snd)
        (colsOf (d.map Prod.fst) rds) [] hnd (by simp)
        (by simp [colsOf]) (by simp)
      simp only [List.nil_append] at hstep
      have hd2 : combStep ((d.map Prod.fst).zip (colsOf (d.map Prod.fst) rds)) d
          = combStep ((d.map Prod.fst).zip (colsOf (d.map Prod.fst) rds))
              ((d.map Prod.fst).zip (d.map Prod.snd)) := by
        rw [zip_fst_snd d]
      rw [hd2, hstep]
      congr 1
      apply List.ext_get
      · simp [colsOf]
      · intro j hj1 hj2
        have hjd : j < d.length := by
          simp only [List.length_zipWith, colsOf] at hj1
          simpa using (lt_of_lt_of_le hj1 (by simp))
        have hjc1 : j < (colsOf (d.map Prod.fst) rds).length := by
          simp [colsOf, hjd]
        have hjc2 : j < (colsOf (d.map Prod.fst) (rds ++ [d])).length := by
          simp [colsOf, hjd]
        simp only [List.get_eq_getElem, List.getElem_zipWith]
        rw [← List.get_eq_getElem (colsOf (d.map Prod.fst) rds) ⟨j, hjc1⟩,
          ← List.get_eq_getElem (colsOf (d.map Prod.fst) (rds ++ [d])) ⟨j, hjc2⟩,
          colsOf_getElem, colsOf_getElem]
        simp [List.getD_eq_getElem?_getD, List.getElem?_eq_getElem hjd]

theorem lookupDD_zip (K : List String) (cols : List (List PyVal)) :
    ∀ (j : Nat), K.Nodup → ∀ (hj : j < K.length) (hjc : j < cols.length),
      lookupDD (K.zip cols) K[j] = some cols[j] := by
  induction K generalizing cols with
  | nil => intro j _ hj; exact absurd hj (by simp)
  | cons k K ih =>
    intro j hnd hj hjc
    rcases cols with _ | ⟨c, cols⟩
    · exact absurd hjc (by simp)
    have hnd2 := List.nodup_cons.mp hnd
    cases j with
    | zero =>
      simp [lookupDD, List.zip_cons_cons, List.find?_cons]
    | succ i =>
      have hiK : i < K.length := by simpa using hj
      have hic : i < cols.length := by simpa using hjc
      have hne : (k == (k :: K)[i + 1]) = false := by
        simp only [List.getElem_cons_succ, beq_eq_false_iff_ne]
        intro hc
        exact hnd2.1 (hc ▸ List.getElem_mem hiK)
      simp only [List.zip_cons_cons, List.getElem_cons_succ, lookupDD,
        List.find?_cons]
      rw [show ((k, c).1 == K[i]) = false by simpa using hne]
      exact ih cols i hnd2.2 hiK hic

theorem filterMap_snd_zip_some {α β : Type} :
    ∀ (as : List α) (bs : List β), as.length = bs.length →
      (as.zip (bs.map some)).filterMap (fun c => c.2) = bs := by
  intro as
  induction as with
  | nil =>
    intro bs h
    have : bs = [] := List.length_eq_zero.mp (by simpa using h.symm)
    subst this
    rfl
  | cons a as ih =>
    intro bs h
    rcases bs with _ | ⟨b, bs⟩
    · simp at h
    · simp only [List.map_cons, List.zip_cons_cons, List.filterMap_cons]
      simp [ih bs (by simpa using h)]

theorem colsOf_mem_length (K : List String) (rds : List Row) :
    ∀ l ∈ colsOf K rds, l.length = rds.length := by
  intro l hl
  simp only [colsOf, List.mem_map, List.mem_range] at hl
  obtain ⟨j, _, rfl⟩ := hl
  simp

theorem cells_eq_zip (K : List String) (C : List (List PyVal)) (hnd : K.Nodup)
    (hlen : C.length = K.length) :
    K.map (fun k => (k, lookupDD (K.zip C) k)) = K.zip (C.map some) := by
  apply List.ext_get
  · simp [hlen]
  · intro j hj1 hj2
    have hjK : j < K.length := by simpa using hj1
    have hjc : j < C.length := by rw [hlen]; exact hjK
    simp only [List.get_eq_getElem, List.getElem_map, List.getElem_zip]
    rw [lookupDD_zip K C j hnd hjK hjc]

theorem explodePart_combine (K : List String) (hnd : K.Nodup) (hKne : K ≠ [])
    (rds : List Row) (hne : rds ≠ []) (hkeys : ∀ d ∈ rds, d.map Prod.fst = K) :
    explodePart K (combine rds) = Except.ok rds := by
  rw [combine_cols K hnd rds hne hkeys]
  have hlen : (colsOf K rds).length = K.length := colsOf_length K rds
  have hKpos : 0 < K.length := List.length_pos.mpr hKne
  have hCpos : 0 < (colsOf K rds).length := by rw [hlen]; exact hKpos
  have hmemlen := colsOf_mem_length K rds
  have hC0 : (colsOf K rds)[0].length = rds.length :=
    hmemlen _ (List.getElem_mem hCpos)
  have hrpos : 0 < rds.length := List.length_pos.mpr hne
  simp only [explodePart]
  rw [cells_eq_zip K (colsOf K rds) hnd hlen,
    filterMap_snd_zip_some K (colsOf K rds) hlen.symm,
    List.head?_eq_getElem?, List.getElem?_eq_getElem hCpos]
  have hall : ((K.zip ((colsOf K rds).map some)).all fun c =>
      match c.2 with
      | some l => l.length == (colsOf K rds)[0].length
      | Option.none => false) = true := by
    rw [List.all_eq_true]
    intro c hc
    have h2 : c.2 ∈ (colsOf K rds).map some := by
      rcases c with ⟨a, b⟩
      exact (List.of_mem_zip hc).2
    rw [List.mem_map] at h2
    obtain ⟨l, hl, hbl⟩ := h2
    rw [← hbl]
    show (l.length == (colsOf K rds)[0].length) = true
    rw [hmemlen l hl, hC0]
    exact beq_self_eq_true _
  have hn0 : ((colsOf K rds)[0].length == 0) = false := by
    rw [hC0]
    simpa using Nat.pos_iff_ne_zero.mp hrpos
  simp only [hall, hn0, Bool.false_eq_true, if_true, if_false, eq_self_iff_true]
  congr 1
  apply List.ext_get
  · simp [hC0]
  · intro m hm1 hm2
    have hmr : m < rds.length := by
      rw [hC0] at hm1
      simpa using hm1
    have hkm : rds[m].map Prod.fst = K := hkeys _ (List.getElem_mem hmr)
    have hlr : rds[m].length = K.length := by
      rw [← hkm, List.length_map]
    simp only [List.get_eq_getElem, List.getElem_map, List.getElem_range]
    apply List.ext_get
    · simp [hlen, hlr]
    · intro j hj1 hj2
      have hjK : j < K.length := by
        simp only [List.length_map, List.length_zip, List.length_map, hlen,
          Nat.min_self] at hj1
        exact hj1
      have hjc : j < (colsOf K rds).length := by rw [hlen]; exact hjK
      have hjr : j < rds[m].length := by rw [hlr]; exact hjK
      simp only [List.get_eq_getElem, List.getElem_map, List.getElem_zip]
      have hcolj : (colsOf K rds)[j]
          = rds.map (fun d => (d.getD j ("", PyVal.none)).2) := by
        rw [← List.get_eq_getElem (colsOf K rds) ⟨j, hjc⟩, colsOf_getElem]
      have hfst : K[j] = (rds[m])[j].1 := by
        have h1 : K[j]? = (rds[m].map Prod.fst)[j]? := by rw [hkm]
        rw [List.getElem?_eq_getElem hjK, List.getElem?_map,
          List.getElem?_eq_getElem hjr] at h1
        simpa using h1
      rw [hcolj, hfst]
      have hsnd : ((some (rds.map (fun d => (d.getD j ("", PyVal.none)).2))).getD []).getD
          m PyVal.none = (rds[m])[j].2 := by
        simp only [Option.getD_some]
        rw [List.getD_eq_getElem?_getD, List.getElem?_map,
          List.getElem?_eq_getElem hmr]
        simp [List.getD_eq_getElem?_getD, List.getElem?_eq_getElem hjr]
      rw [hsnd]

theorem mapE_ok_out {α β : Type} {f : α → Except PyErr β} :
    ∀ {l : List α} {ys : List β}, mapE f l = Except.ok ys →
      ∀ y ∈ ys, ∃ x ∈ l, f x = Except.ok y := by
  intro l
  induction l with
  | nil =>
    intro ys h y hy
    simp [mapE] at h
    subst h
    exact absurd hy (by simp)
  | cons a xs ih =>
    intro ys h y hy
    rcases mapE_cons_ok.mp h with ⟨z, zs, hz, hzs, rfl⟩
    rcases List.mem_cons.mp hy with rfl | hy2
    · exact ⟨a, by simp, hz⟩
    · rcases ih hzs y hy2 with ⟨x, hx, hfx⟩
      exact ⟨x, by simp [hx], hfx⟩

theorem featureNames_nodup : featureNames.Nodup := by decide

theorem combine_keys (rds : List Row) (hne : rds ≠ [])
    (hkeys : ∀ d ∈ rds, d.map Prod.fst = featureNames) :
    (combine rds).map Prod.fst = featureNames := by
  rw [combine_cols featureNames featureNames_nodup rds hne hkeys]
  exact List.map_fst_zip featureNames (colsOf featureNames rds)
    (le_of_eq (colsOf_length featureNames rds).symm)

theorem extract_holes_shape (ho : Option String)
    (dout : List (String × List PyVal)) (h : extract_holes ho = Except.ok dout) :
    dout = [] ∨ dout.map Prod.fst = featureNames := by
  rcases ho with _ | s
  · left
    simp only [extract_holes, Except.ok.injEq] at h
    exact h.symm
  · simp only [extract_holes, bind_ok, Except.ok.injEq] at h
    obtain ⟨v, hv, hs, hiter, rds, hrds, hout⟩ := h
    rcases eq_or_ne rds [] with rfl | hne2
    · left
      rw [← hout]
      rfl
    · right
      rw [← hout]
      refine combine_keys rds hne2 ?_
      intro d hd
      rcases mapE_ok_out hrds d hd with ⟨hole, _, hok⟩
      exact extract_hole_ok_shape hole d hok

theorem keysFold_nil_feature : keysFold [] featureNames = featureNames := by decide

theorem keysFold_feature_feature :
    keysFold featureNames featureNames = featureNames := by decide

theorem keysFold_acc_nil (acc : List String) : keysFold acc [] = acc := rfl

theorem colsUnion_cases :
    ∀ (douts : List (List (String × List PyVal))) (acc : List String),
      acc = [] ∨ acc = featureNames →
      (∀ dout ∈ douts, dout = [] ∨ dout.map Prod.fst = featureNames) →
      douts.foldl (fun a dout => keysFold a (dout.map Prod.fst)) acc = [] ∨
      douts.foldl (fun a dout => keysFold a (dout.map Prod.fst)) acc
        = featureNames := by
  intro douts
  induction douts with
  | nil => intro acc hacc _; simpa using hacc
  | cons dout rest ih =>
    intro acc hacc hall
    simp only [List.foldl_cons]
    refine ih (keysFold acc (dout.map Prod.fst)) ?_
      (fun d hd => hall d (by simp [hd]))
    rcases hall dout (by simp) with hd | hd
    · subst hd
      simpa [keysFold_acc_nil] using hacc
    · rw [hd]
      rcases hacc with rfl | rfl
      · right; exact keysFold_nil_feature
      · right; exact keysFold_feature_feature

theorem colsUnion_feature (douts : List (List (String × List PyVal)))
    (hall : ∀ dout ∈ douts, dout = [] ∨ dout.map Prod.fst = featureNames)
    (hne : colsUnion douts ≠ []) : colsUnion douts = featureNames := by
  rcases colsUnion_cases douts [] (Or.inl rfl) hall with h | h
  · exact absurd h hne
  · exact h

theorem create_holes_ok (parts : List PartRow) (rows : List (Nat × Row))
    (h : create_holes_df parts = Except.ok rows) :
    ∃ douts rowss,
      mapE (fun p => extract_holes p.holes) parts = Except.ok douts ∧
      douts.length = parts.length ∧
      colsUnion douts = featureNames ∧
      mapE (fun pq : PartRow × List (String × List PyVal) => do
          let rs ← explodePart featureNames pq.2
          pure (rs.map (fun r => (pq.1.part_index, r))))
        (parts.zip douts) = Except.ok rowss ∧
      rows = ((rowss.flatten.filter (fun pr => keepRow pr.2)).map
        (fun pr => (("part_index", natVal pr.1) : String × PyVal) :: pr.2)).enum := by
  simp only [create_holes_df, bind_ok] at h
  obtain ⟨douts, hdouts, h2⟩ := h
  by_cases hemp : (colsUnion douts).isEmpty
  · rw [if_pos hemp] at h2
    exact absurd h2 (by simp)
  · rw [if_neg hemp] at h2
    have hshape : ∀ dout ∈ douts, dout = [] ∨ dout.map Prod.fst = featureNames := by
      intro dout hd
      rcases mapE_ok_out hdouts dout hd with ⟨p, _, hok⟩
      exact extract_holes_shape p.holes dout hok
    have hcols : colsUnion douts = featureNames := by
      refine colsUnion_feature douts hshape ?_
      intro hc
      exact hemp (by simp [hc])
    rw [hcols] at h2
    simp only [bind_ok] at h2
    obtain ⟨rowss, hrowss, hrows⟩ := h2
    have hlen : douts.length = parts.length := mapE_ok_length hdouts
    refine ⟨douts, rowss, hdouts, hlen, hcols, hrowss, ?_⟩
    simpa [pure, Except.pure] using hrows.symm

/-- Claim C7: every hole row's part_index equals the part_index of the part
whose JSON array contained its descriptor, all hole rows of one part are
contiguous and in descriptor order (the holes table is the concatenation of
per-part blocks in part order, each block the part's exploded rows that
survive the dropna filter, labelled with that part's index), and hole_index
(the position assigned by enum after concatenation and dropping) is freshly
assigned, monotonically increasing from 0, independent of part_index. -/
theorem holes_linkage_order (parts : List PartRow) (rows : List (Nat × Row))
    (h : create_holes_df parts = Except.ok rows) :
    rows.map Prod.fst = List.range rows.length ∧
    ∃ blocks : List (List Row),
      blocks.length = parts.length ∧
      rows = blocks.flatten.enum ∧
      ∀ i, i < parts.length →
        ∃ dout rs,
          extract_holes ((parts.getD i ⟨0, Option.none⟩).holes) = Except.ok dout ∧
          explodePart featureNames dout = Except.ok rs ∧
          blocks.getD i [] = (rs.filter keepRow).map
            (fun r => (("part_index",
              natVal (parts.getD i ⟨0, Option.none⟩).part_index) : String × PyVal)
                :: r) := by
  obtain ⟨douts, rowss, hdouts, hdlen, hcols, hrowss, hrows⟩ :=
    create_holes_ok parts rows h
  have hrlen : rowss.length = parts.length := by
    rw [mapE_ok_length hrowss, List.length_zip, hdlen, Nat.min_self]
  constructor
  · rw [hrows, List.enum_eq_enumFrom, List.enumFrom_map_fst, List.range_eq_range',
      List.enumFrom_length]
  refine ⟨rowss.map (fun block => (block.filter (fun pr => keepRow pr.2)).map
    (fun pr => (("part_index", natVal pr.1) : String × PyVal) :: pr.2)), ?_, ?_, ?_⟩
  · simp [hrlen]
  · rw [hrows]
    congr 1
    rw [filter_flatten_eq, map_flatten_eq, List.map_map]
    rfl
  · intro i hi
    have hid : i < douts.length := by rw [hdlen]; exact hi
    have hiz : i < (parts.zip douts).length := by
      rw [List.length_zip, hdlen, Nat.min_self]; exact hi
    have hir : i < rowss.length := by rw [hrlen]; exact hi
    have hex := mapE_ok_get hdouts i hi hid
    have hg := mapE_ok_get hrowss i hiz hir
    simp only [List.get_eq_getElem, List.getElem_zip] at hg
    rw [bind_ok] at hg
    obtain ⟨rs, hrs, hpure⟩ := hg
    have hrw : rowss[i] = rs.map (fun r => (parts[i].part_index, r)) := by
      simpa [pure, Except.pure] using hpure.symm
    have hpd : parts.getD i ⟨0, Option.none⟩ = parts[i] := by
      rw [List.getD_eq_getElem?_getD, List.getElem?_eq_getElem hi]
      rfl
    refine ⟨douts[i], rs, ?_, hrs, ?_⟩
    · rw [hpd]
      simpa using hex
    · have hbd : (rowss.map (fun block => (block.filter
          (fun pr => keepRow pr.2)).map
          (fun pr => (("part_index", natVal pr.1) : String × PyVal)
            :: pr.2))).getD i []
          = (rowss[i].filter (fun pr => keepRow pr.2)).map
            (fun pr => (("part_index", natVal pr.1) : String × PyVal) :: pr.2) := by
        rw [List.getD_eq_getElem?_getD, List.getElem?_map,
          List.getElem?_eq_getElem hir]
        rfl
      rw [hbd, hrw, hpd, filter_map_comm]
      simp [List.map_map, Function.comp_def]

/-- Claim C7, witness: on a concrete two-part table (one part with one hole,
one with a null holes field) the table decomposes into per-part blocks with
fresh positional hole indices. -/
theorem holes_linkage_order_w :
    ∃ rows, create_holes_df
        [⟨0, some "[\x7b\"length\": 100, \"radius\": 4\x7d]"⟩, ⟨1, Option.none⟩]
        = Except.ok rows ∧
      rows.map Prod.fst = List.range rows.length ∧
      ∃ blocks : List (List Row), blocks.length = 2 ∧ rows = blocks.flatten.enum := by
  have h := holes_linkage_order
    [⟨0, some "[\x7b\"length\": 100, \"radius\": 4\x7d]"⟩, ⟨1, Option.none⟩] _ rfl
  obtain ⟨h1, blocks, hb1, hb2, _⟩ := h
  exact ⟨_, rfl, h1, blocks, hb1, hb2⟩

theorem sum_eq_single (L : List Nat) (i : Nat) (hi : i < L.length)
    (h0 : ∀ j (hj : j < L.length), j ≠ i → L.get ⟨j, hj⟩ = 0) :
    L.sum = L.get ⟨i, hi⟩ := by
  induction L generalizing i with
  | nil => exact absurd hi (by simp)
  | cons a L ih =>
    cases i with
    | zero =>
      have hrest : L.sum = 0 := by
        apply List.sum_eq_zero
        intro x hx
        rcases List.mem_iff_get.mp hx with ⟨⟨j, hj⟩, rfl⟩
        exact h0 (j + 1) (by simpa using hj) (by simp)
      simp [hrest]
    | succ k =>
      have ha : a = 0 := h0 0 (by simp) (by simp)
      have hk : k < L.length := by simpa using hi
      rw [List.sum_cons, ha,
        ih k hk (fun j hj hne => h0 (j + 1) (by simpa using hj) (by simpa using hne))]
      simp

/-- Claim C2, counterexample: a part whose holes array holds one descriptor
(the empty object) produces zero hole rows, not one — every extracted feature
of the descriptor is null, so the dropna safety net removes its row and the
per-part cardinality equality fails. -/
theorem holes_count_drop_cex :
    json_loads "[\x7b\x7d]" = Except.ok (PyVal.list [PyVal.dict []]) ∧
    create_holes_df [⟨0, some "[\x7b\x7d]"⟩] = Except.ok [] := ⟨rfl, rfl⟩

theorem count_part_rows (pi : Nat) :
    ∀ (Y : List (Nat × Row)) (n : Nat),
      (((Y.map (fun pr =>
          (("part_index", natVal pr.1) : String × PyVal) :: pr.2)).enumFrom n).filter
        (fun ir => decide (rowPartIdx ir.2 = some ⟨Int.ofNat pi, 0⟩))).length
      = Y.countP (fun pr => decide (pr.1 = pi)) := by
  intro Y
  induction Y with
  | nil => intro n; rfl
  | cons pr Y ih =>
    intro n
    have hhead : decide (rowPartIdx (("part_index", natVal pr.1) :: pr.2)
        = some ⟨Int.ofNat pi, 0⟩) = decide (pr.1 = pi) := by
      simp [rowPartIdx, natVal, DecNum.mk.injEq]
    simp only [List.map_cons, List.enumFrom_cons, List.filter_cons,
      List.countP_cons, hhead]
    by_cases hc : pr.1 = pi
    · simp [hc]
      simpa using ih (n + 1)
    · simp [hc]
      simpa using ih (n + 1)

/-- Claim C2 (amended): for every part of a table with distinct part indices,
the number of hole rows carrying that part's index equals the number of
descriptors in its JSON array whose extraction succeeds with at least one
non-null feature; a descriptor extracting to an all-null record (for example
the empty object) is dropped by the dropna safety net, so the plain
descriptor count is not preserved. -/
theorem holes_count_amended (parts : List PartRow) (rows : List (Nat × Row))
    (h : create_holes_df parts = Except.ok rows)
    (hnd : (parts.map (fun p => p.part_index)).Nodup)
    (i : Nat) (hi : i < parts.length) (s : String) (ds : List PyVal)
    (hs : (parts.getD i ⟨0, Option.none⟩).holes = some s)
    (hjson : json_loads s = Except.ok (PyVal.list ds)) :
    (rows.filter (fun ir => decide (rowPartIdx ir.2
        = some ⟨Int.ofNat (parts.getD i ⟨0, Option.none⟩).part_index, 0⟩))).length
      = ds.countP descriptorKept := by
  obtain ⟨douts, rowss, hdouts, hdlen, hcols, hrowss, hrows⟩ :=
    create_holes_ok parts rows h
  have hpd : parts.getD i ⟨0, Option.none⟩ = parts[i] := by
    rw [List.getD_eq_getElem?_getD, List.getElem?_eq_getElem hi]
    rfl
  rw [hpd] at hs ⊢
  have hid : i < douts.length := by rw [hdlen]; exact hi
  have hrlen : rowss.length = parts.length := by
    rw [mapE_ok_length hrowss, List.length_zip, hdlen, Nat.min_self]
  have hir : i < rowss.length := by rw [hrlen]; exact hi
  rw [hrows, List.enum_eq_enumFrom, count_part_rows, List.countP_filter,
    List.countP_eq_length_filter, filter_flatten_eq, List.length_flatten,
    List.map_map]
  have hblock : ∀ j (hj2 : j < parts.length), ∃ rs,
      explodePart featureNames (douts.get ⟨j, by rw [hdlen]; exact hj2⟩)
        = Except.ok rs ∧
      rowss.get ⟨j, by rw [hrlen]; exact hj2⟩
        = rs.map (fun r => ((parts.get ⟨j, hj2⟩).part_index, r)) := by
    intro j hj
    have hjz : j < (parts.zip douts).length := by
      rw [List.length_zip, hdlen, Nat.min_self]; exact hj
    have hjr : j < rowss.length := by rw [hrlen]; exact hj
    have hg := mapE_ok_get hrowss j hjz hjr
    simp only [List.get_eq_getElem, List.getElem_zip] at hg
    rw [bind_ok] at hg
    obtain ⟨rs, hrs, hpure⟩ := hg
    refine ⟨rs, ?_, ?_⟩
    · simpa using hrs
    · simp only [List.get_eq_getElem]
      simpa [pure, Except.pure] using hpure.symm
  obtain ⟨rsi, hrsi, hrwi⟩ := hblock i hi
  simp only [List.get_eq_getElem] at hrsi hrwi
  rw [sum_eq_single _ i (by simpa using hir) ?_]
  · simp only [List.get_eq_getElem, List.getElem_map, Function.comp_apply]
    rw [hrwi, filter_map_comm, List.length_map]
    have hfe : ∀ x ∈ rsi,
        (decide (((parts[i].part_index, x) : Nat × Row).1 = parts[i].part_index)
          && keepRow (((parts[i].part_index, x) : Nat × Row)).2)
        = keepRow x := by
      intro x _
      simp
    rw [List.filter_congr hfe]
    have hex := mapE_ok_get hdouts i hi hid
    simp only [List.get_eq_getElem] at hex
    rw [hs] at hex
    simp only [extract_holes, bind_ok, Except.ok.injEq] at hex
    obtain ⟨v, hv, its, hit, rds, hrds, hcomb⟩ := hex
    rw [hjson] at hv
    have hveq : v = PyVal.list ds := (Except.ok.inj hv).symm
    subst hveq
    have hits : its = ds := by
      simpa [pyIter] using hit.symm
    rw [hits] at hrds
    rcases eq_or_ne ds [] with rfl | hdne
    · have hrds0 : rds = [] := by
        simpa [mapE] using hrds.symm
      subst hrds0
      have hdout0 : (douts[i] : List (String × List PyVal)) = [] := by
        rw [← hcomb]
        rfl
      rw [hdout0, explodePart_empty] at hrsi
      have hrsi2 : rsi = [featureNames.map (fun k => (k, PyVal.none))] :=
        (Except.ok.inj hrsi).symm
      rw [hrsi2]
      simp [List.filter_cons, keepRow_nullRow]
    · have hrdne : rds ≠ [] := by
        intro hc
        subst hc
        have hl := mapE_ok_length hrds
        exact hdne (List.length_eq_zero.mp (by simpa using hl.symm))
      have hkeys : ∀ d ∈ rds, d.map Prod.fst = featureNames := by
        intro d hd
        rcases mapE_ok_out hrds d hd with ⟨hole, _, hok⟩
        exact extract_hole_ok_shape hole d hok
      have hrt := explodePart_combine featureNames featureNames_nodup
        (by decide) rds hrdne hkeys
      rw [hcomb] at hrt
      rw [hrt] at hrsi
      have hrseq : rsi = rds := (Except.ok.inj hrsi).symm
      subst hrseq
      rw [← List.countP_eq_length_filter, mapE_countP keepRow hrds]
      refine List.countP_congr ?_
      intro x _
      cases hx : extract_hole x with
      | ok r => simp [descriptorKept, hx]
      | error e => simp [descriptorKept, hx]
  · intro j hj hne
    have hjp : j < parts.length := by
      rw [← hrlen]
      simpa using hj
    obtain ⟨rsj, _, hrwj⟩ := hblock j hjp
    simp only [List.get_eq_getElem] at hrwj
    simp only [List.get_eq_getElem, List.getElem_map, Function.comp_apply]
    rw [hrwj, filter_map_comm, List.length_map]
    have hne2 : parts[j].part_index ≠ parts[i].part_index := by
      intro hc
      apply hne
      have hji : (parts.map (fun p => p.part_index))[j]?
          = (parts.map (fun p => p.part_index))[i]? := by
        rw [List.getElem?_map, List.getElem?_map, List.getElem?_eq_getElem hjp,
          List.getElem?_eq_getElem hi]
        simp [hc]
      rw [List.getElem?_eq_getElem (by simpa using hjp),
        List.getElem?_eq_getElem (by simpa using hi)] at hji
      exact (List.Nodup.getElem_inj_iff hnd).mp (Option.some.inj hji)
    simp [hne2]

/-- Claim C2, witness: a part with two descriptors, one of which extracts to
all-null, contributes exactly one row — the count of descriptors with a
non-null feature. -/
theorem holes_count_amended_w :
    ∃ rows, create_holes_df [⟨0, some "[\x7b\x7d, \x7b\"length\": 1\x7d]"⟩]
        = Except.ok rows ∧
      (rows.filter (fun ir => decide (rowPartIdx ir.2
          = some ⟨Int.ofNat 0, 0⟩))).length
        = ([PyVal.dict [],
            PyVal.dict [("length", PyVal.num ⟨1, 0⟩)]].countP descriptorKept) := by
  refine ⟨_, rfl, ?_⟩
  exact holes_count_amended [⟨0, some "[\x7b\x7d, \x7b\"length\": 1\x7d]"⟩] _ rfl
    (by simp) 0 (by simp) "[\x7b\x7d, \x7b\"length\": 1\x7d]"
    [PyVal.dict [], PyVal.dict [("length", PyVal.num ⟨1, 0⟩)]] rfl rfl

/-! ### Dict update and lookup lemmas for the classifier -/

theorem replace_pred_eq (k k2 : String) (v : PyVal) (kv : String × PyVal) :
    (((if kv.1 == k then (k, v) else kv) : String × PyVal).1 == k2)
      = (kv.1 == k2) := by
  by_cases hk : kv.1 == k
  · have hkv : kv.1 = k := by simpa using hk
    rw [if_pos hk]
    show (k == k2) = (kv.1 == k2)
    rw [hkv]
  · rw [if_neg hk]

theorem dictGet_dictSet_same (r : Row) (k : String) (v : PyVal) :
    dictGet (dictSet r k v) k = some v := by
  by_cases h : r.any (fun kv => kv.1 == k)
  · rw [dictSet, if_pos h, dictGet, List.find?_map]
    have hpred : ((fun kv : String × PyVal => kv.1 == k)
        ∘ (fun kv => if kv.1 == k then (k, v) else kv))
        = (fun kv : String × PyVal => kv.1 == k) := by
      funext kv
      exact replace_pred_eq k k v kv
    rw [hpred]
    have hsome : (r.find? (fun kv => kv.1 == k)).isSome := by
      rw [List.find?_isSome]
      simpa [List.any_eq_true] using h
    rcases hy : r.find? (fun kv => kv.1 == k) with _ | y
    · rw [hy] at hsome
      simp at hsome
    · have hpy2 := List.find?_some hy
      have hpy : (y.1 == k) = true := hpy2
      have hyk2 : y.1 = k := by simpa using hpy
      simp [hy, hyk2]
  · rw [dictSet, if_neg h, dictGet, List.find?_append]
    have hnone : r.find? (fun kv => kv.1 == k) = Option.none := by
      rw [List.find?_eq_none]
      intro x hx
      simp only [List.any_eq_true, not_exists] at h
      intro hc
      exact h x ⟨hx, hc⟩
    rw [hnone]
    simp [List.find?_cons]

theorem dictGet_dictSet_other (r : Row) (k k2 : String) (v : PyVal)
    (hne : k2 ≠ k) : dictGet (dictSet r k v) k2 = dictGet r k2 := by
  by_cases h : r.any (fun kv => kv.1 == k)
  · rw [dictSet, if_pos h, dictGet, List.find?_map]
    have hpred : ((fun kv : String × PyVal => kv.1 == k2)
        ∘ (fun kv => if kv.1 == k then (k, v) else kv))
        = (fun kv : String × PyVal => kv.1 == k2) := by
      funext kv
      exact replace_pred_eq k k2 v kv
    rw [hpred]
    rcases hy : r.find? (fun kv => kv.1 == k2) with _ | y
    · simp [dictGet, hy]
    · have hpy2 := List.find?_some hy
      have hpy : (y.1 == k2) = true := hpy2
      have hyk : (y.1 == k) = false := by
        have h2 : y.1 = k2 := by simpa using hpy
        rw [h2]
        simpa using hne
      have hyk2 : ¬ y.1 = k := by simpa using hyk
      simp [dictGet, hy, hyk2]
  · rw [dictSet, if_neg h, dictGet, List.find?_append]
    have hnew : List.find? (fun kv : String × PyVal => kv.1 == k2) [(k, v)]
        = Option.none := by
      have : (k == k2) = false := by
        simpa using fun hc => hne hc.symm
      simp [List.find?_cons, this]
    rw [hnew]
    simp [dictGet]

theorem dictGet_filter (r : Row) (p : String × PyVal → Bool) (k : String)
    (hp : ∀ v2, p (k, v2) = true) :
    dictGet (r.filter p) k = dictGet r k := by
  induction r with
  | nil => rfl
  | cons kv r ih =>
    by_cases hk : (kv.1 == k) = true
    · have hkv : kv.1 = k := by simpa using hk
      have hpkv : p kv = true := by
        have h2 := hp kv.2
        rw [← hkv] at h2
        simpa using h2
      simp only [List.filter_cons, hpkv, if_true, dictGet, List.find?_cons, hk]
    · have hk2 : (kv.1 == k) = false := by simpa using hk
      by_cases hpkv : p kv
      · simp only [List.filter_cons, hpkv, if_true, dictGet, List.find?_cons,
          hk2]
        simpa [dictGet] using ih
      · have hpkv2 : p kv = false := by simpa using hpkv
        simp only [List.filter_cons, hpkv2, Bool.false_eq_true, if_false,
          dictGet, List.find?_cons, hk2]
        simpa [dictGet] using ih

theorem filter_map_replace (k : String) (v : PyVal) (p : String × PyVal → Bool)
    (hp : ∀ v2, p (k, v2) = false) (r : Row) :
    (r.map (fun kv => if kv.1 == k then (k, v) else kv)).filter p
      = r.filter p := by
  rw [filter_map_comm]
  have hpf : ∀ kv ∈ r, p (if kv.1 == k then (k, v) else kv) = p kv := by
    intro kv _
    by_cases hk : kv.1 == k
    · have hkv : kv.1 = k := by simpa using hk
      rw [if_pos hk, hp v]
      have h2 := hp kv.2
      rw [← hkv] at h2
      simp only [Prod.mk.eta] at h2
      exact h2.symm
    · rw [if_neg hk]
  rw [List.filter_congr hpf]
  have hid : ∀ kv ∈ r.filter p, (if kv.1 == k then (k, v) else kv) = kv := by
    intro kv hmem
    have hpkv : p kv = true := List.of_mem_filter hmem
    by_cases hk : kv.1 == k
    · exfalso
      have hkv : kv.1 = k := by simpa using hk
      have h2 := hp kv.2
      rw [← hkv] at h2
      simp only [Prod.mk.eta] at h2
      rw [hpkv] at h2
      exact Bool.true_eq_false.mp h2
    · rw [if_neg hk]
  rw [List.map_congr_left hid]
  simp

theorem filter_dictSet (r : Row) (k : String) (v : PyVal)
    (p : String × PyVal → Bool) (hp : ∀ v2, p (k, v2) = false) :
    (dictSet r k v).filter p = r.filter p := by
  by_cases h : r.any (fun kv => kv.1 == k)
  · rw [dictSet, if_pos h]
    exact filter_map_replace k v p hp r
  · rw [dictSet, if_neg h, List.filter_append]
    simp [List.filter_cons, hp v]

theorem explodePart_keys (cols : List String) (dout : List (String × List PyVal))
    (rs : List Row) (h : explodePart cols dout = Except.ok rs) :
    ∀ r ∈ rs, r.map Prod.fst = cols := by
  intro r hr
  simp only [explodePart] at h
  split at h
  · have hrs : rs = [cols.map (fun k => (k, PyVal.none))] := (Except.ok.inj h).symm
    subst hrs
    have hr2 : r = cols.map (fun k => (k, PyVal.none)) := by simpa using hr
    subst hr2
    simp [List.map_map, Function.comp_def]
  · split at h
    · split at h
      · have hrs : rs = [cols.map (fun k => (k, PyVal.none))] :=
          (Except.ok.inj h).symm
        subst hrs
        have hr2 : r = cols.map (fun k => (k, PyVal.none)) := by simpa using hr
        subst hr2
        simp [List.map_map, Function.comp_def]
      · have hrs : rs = (List.range _).map (fun m =>
            (cols.map (fun k => (k, lookupDD dout k))).map
              (fun c => (c.1, (c.2.getD []).getD m PyVal.none))) :=
          (Except.ok.inj h).symm
        subst hrs
        rw [List.mem_map] at hr
        obtain ⟨m, _, rfl⟩ := hr
        simp [List.map_map, Function.comp_def]
    · exact absurd h (by simp)

theorem rowGet_dictSet_same (r : Row) (k : String) (v : PyVal) :
    rowGet (dictSet r k v) k = Except.ok v := by
  rw [rowGet, dictGet_dictSet_same]

theorem rowGet_dictSet_other (r : Row) (k k2 : String) (v : PyVal)
    (hne : k2 ≠ k) : rowGet (dictSet r k v) k2 = rowGet r k2 := by
  rw [rowGet, dictGet_dictSet_other r k k2 v hne, rowGet]

theorem create_unreachable_ok (dfh hdf u : List (Nat × Row))
    (hok : create_unreachable_df dfh = Except.ok (hdf, u)) :
    hdf.length = dfh.length ∧ u.length = dfh.length ∧
    ∀ i (h1 : i < dfh.length) (h2 : i < hdf.length) (h3 : i < u.length),
      ∃ (lv rv : PyVal) (w e : Bool),
        rowGet (dfh.get ⟨i, h1⟩).2 "length" = Except.ok lv ∧
        rowGet (dfh.get ⟨i, h1⟩).2 "radius" = Except.ok rv ∧
        has_warning lv rv = Except.ok w ∧
        has_error lv rv = Except.ok e ∧
        hdf.get ⟨i, h2⟩ = ((dfh.get ⟨i, h1⟩).1,
          (dictSet (dictSet (dfh.get ⟨i, h1⟩).2 flagW (PyVal.bool w)) flagE
            (PyVal.bool e)).filter
              (fun kv => kv.1 != flagW && kv.1 != flagE)) ∧
        u.get ⟨i, h3⟩ = ((dfh.get ⟨i, h1⟩).1,
          [(flagW, PyVal.bool w), (flagE, PyVal.bool e)]) := by
  simp only [create_unreachable_df, bind_ok] at hok
  obtain ⟨warns, hw, errs, he, unre, hu, hfin⟩ := hok
  have hfin2 : hdf = List.map
        (fun ir => (ir.1, ir.2.filter (fun kv => kv.1 != flagW && kv.1 != flagE)))
        ((((dfh.zip warns).map
          (fun x => (x.1.1, dictSet x.1.2 flagW (PyVal.bool x.2)))).zip errs).map
          (fun x => (x.1.1, dictSet x.1.2 flagE (PyVal.bool x.2))))
      ∧ u = unre := by
    have := hfin
    simp only [pure, Except.pure, Except.ok.injEq, Prod.mk.injEq] at this
    exact ⟨this.1.symm, this.2.symm⟩
  have hwlen : warns.length = dfh.length := mapE_ok_length hw
  have hr1len : ((dfh.zip warns).map
      (fun x => (x.1.1, dictSet x.1.2 flagW (PyVal.bool x.2)))).length
      = dfh.length := by
    simp [List.length_zip, hwlen]
  have helen : errs.length = dfh.length := by
    rw [mapE_ok_length he, hr1len]
  have hr2len : ((((dfh.zip warns).map
      (fun x => (x.1.1, dictSet x.1.2 flagW (PyVal.bool x.2)))).zip errs).map
      (fun x => (x.1.1, dictSet x.1.2 flagE (PyVal.bool x.2)))).length
      = dfh.length := by
    simp [List.length_zip, hr1len, helen]
  have hulen : unre.length = dfh.length := by
    rw [mapE_ok_length hu, hr2len]
  refine ⟨by rw [hfin2.1, List.length_map, hr2len], by rw [hfin2.2]; exact hulen, ?_⟩
  intro i h1 h2 h3
  have hiw : i < warns.length := by rw [hwlen]; exact h1
  have hir1 : i < ((dfh.zip warns).map
      (fun x => (x.1.1, dictSet x.1.2 flagW (PyVal.bool x.2)))).length := by
    rw [hr1len]; exact h1
  have hie : i < errs.length := by rw [helen]; exact h1
  have hir2 : i < ((((dfh.zip warns).map
      (fun x => (x.1.1, dictSet x.1.2 flagW (PyVal.bool x.2)))).zip errs).map
      (fun x => (x.1.1, dictSet x.1.2 flagE (PyVal.bool x.2)))).length := by
    rw [hr2len]; exact h1
  have hiu : i < unre.length := by rw [hulen]; exact h1
  -- the warning flag of row i
  have hwi := mapE_ok_get hw i h1 hiw
  rw [bind_ok] at hwi
  obtain ⟨lv, hlv, hwi2⟩ := hwi
  rw [bind_ok] at hwi2
  obtain ⟨rv, hrv, hwarn⟩ := hwi2
  -- the error flag of row i
  have hei := mapE_ok_get he i hir1 hie
  simp only [List.get_eq_getElem, List.getElem_map, List.getElem_zip] at hei
  rw [bind_ok] at hei
  obtain ⟨lv2, hlv2, hei2⟩ := hei
  rw [bind_ok] at hei2
  obtain ⟨rv2, hrv2, herr⟩ := hei2
  rw [rowGet_dictSet_other _ _ _ _ (by decide)] at hlv2 hrv2
  simp only [List.get_eq_getElem] at hlv hrv
  have hlv2eq : lv2 = lv := Except.ok.inj (hlv2.symm.trans hlv)
  have hrv2eq : rv2 = rv := Except.ok.inj (hrv2.symm.trans hrv)
  subst hlv2eq
  subst hrv2eq
  -- the unreachable row i
  have hui := mapE_ok_get hu i hir2 hiu
  simp only [List.get_eq_getElem, List.getElem_map, List.getElem_zip] at hui
  rw [bind_ok] at hui
  obtain ⟨w2, hw2, hui2⟩ := hui
  rw [bind_ok] at hui2
  obtain ⟨e2, he2, hpure⟩ := hui2
  rw [rowGet_dictSet_other _ _ _ _ (by decide), rowGet_dictSet_same] at hw2
  rw [rowGet_dictSet_same] at he2
  have hw2eq : w2 = PyVal.bool warns[i] := (Except.ok.inj hw2).symm
  have he2eq : e2 = PyVal.bool errs[i] := (Except.ok.inj he2).symm
  subst hw2eq
  subst he2eq
  refine ⟨lv2, rv2, warns[i], errs[i], hlv, hrv, by simpa using hwarn,
    by simpa using herr, ?_, ?_⟩
  · simp only [List.get_eq_getElem]
    have key : ∀ v : Nat × Row, hdf[i]? = some v → hdf[i] = v := by
      intro v hv
      rw [List.getElem?_eq_getElem h2] at hv
      exact Option.some.inj hv
    refine key _ ?_
    rw [hfin2.1]
    rw [List.getElem?_eq_getElem (by rw [List.length_map, hr2len]; exact h1)]
    simp only [List.getElem_map, List.getElem_zip]
  · simp only [List.get_eq_getElem]
    have key : ∀ v : Nat × Row, u[i]? = some v → u[i] = v := by
      intro v hv
      rw [List.getElem?_eq_getElem h3] at hv
      exact Option.some.inj hv
    refine key _ ?_
    rw [hfin2.2]
    rw [List.getElem?_eq_getElem hiu]
    have hpure2 : (Except.ok ((dfh[i].1 : Nat),
        ([(flagW, PyVal.bool warns[i]), (flagE, PyVal.bool errs[i])] : Row))
        : Except PyErr (Nat × Row)) = Except.ok unre[i] := by
      simpa [pure, Except.pure] using hpure
    rw [← Except.ok.inj hpure2]

theorem create_holes_row_keys (parts : List PartRow) (rows : List (Nat × Row))
    (h : create_holes_df parts = Except.ok rows) :
    ∀ ir ∈ rows, ir.2.map Prod.fst = "part_index" :: featureNames := by
  obtain ⟨douts, rowss, hdouts, hlen, hcols, hrowss, hrows⟩ :=
    create_holes_ok parts rows h
  intro ir hir
  have h2 : ir.2 ∈ (rowss.flatten.filter (fun pr => keepRow pr.2)).map
      (fun pr => (("part_index", natVal pr.1) : String × PyVal) :: pr.2) := by
    have hm := List.mem_map_of_mem Prod.snd hir
    rw [hrows] at hm
    rwa [List.enum_map_snd] at hm
  rw [List.mem_map] at h2
  obtain ⟨pr, hpr, heq⟩ := h2
  have hprf : pr ∈ rowss.flatten := List.mem_of_mem_filter hpr
  rw [List.mem_flatten] at hprf
  obtain ⟨block, hblock, hprb⟩ := hprf
  obtain ⟨pq, hpq, hfb⟩ := mapE_ok_out hrowss block hblock
  rw [bind_ok] at hfb
  obtain ⟨rs, hrs, hpure⟩ := hfb
  have hblock2 : block = rs.map (fun r => (pq.1.part_index, r)) := by
    simpa [pure, Except.pure] using hpure.symm
  rw [hblock2, List.mem_map] at hprb
  obtain ⟨r0, hr0, hpr0⟩ := hprb
  have hkeys := explodePart_keys featureNames pq.2 rs hrs r0 hr0
  subst hpr0
  rw [← heq]
  simp [hkeys]

/-- Claim C4: after the Risk Classifier splits the flags out, the holes table
and the unreachable table have identical row cardinality and identical row
order (row i of both tables carries the same hole_index), and row i of the
unreachable table carries exactly the warning and error flags computed from
the length and radius of row i of the returned holes table. -/
theorem unreachable_alignment (dfh hdf u : List (Nat × Row))
    (hok : create_unreachable_df dfh = Except.ok (hdf, u)) :
    hdf.length = u.length ∧
    ∀ i (h2 : i < hdf.length) (h3 : i < u.length),
      (u.get ⟨i, h3⟩).1 = (hdf.get ⟨i, h2⟩).1 ∧
      ∃ (lv rv : PyVal) (w e : Bool),
        rowGet (hdf.get ⟨i, h2⟩).2 "length" = Except.ok lv ∧
        rowGet (hdf.get ⟨i, h2⟩).2 "radius" = Except.ok rv ∧
        has_warning lv rv = Except.ok w ∧
        has_error lv rv = Except.ok e ∧
        (u.get ⟨i, h3⟩).2 = [(flagW, PyVal.bool w), (flagE, PyVal.bool e)] := by
  obtain ⟨hlen1, hlen2, hpt⟩ := create_unreachable_ok dfh hdf u hok
  refine ⟨hlen1.trans hlen2.symm, ?_⟩
  intro i h2 h3
  have h1 : i < dfh.length := hlen1 ▸ h2
  obtain ⟨lv, rv, w, e, hlv, hrv, hw, he, hhdf, hu⟩ := hpt i h1 h2 h3
  have hfst : (u.get ⟨i, h3⟩).1 = (hdf.get ⟨i, h2⟩).1 := by
    rw [hhdf, hu]
  refine ⟨hfst, lv, rv, w, e, ?_, ?_, hw, he, by rw [hu]⟩
  · rw [hhdf]
    simp only [rowGet]
    rw [dictGet_filter _ _ _ (fun v2 => rfl),
      dictGet_dictSet_other _ _ _ _ (by decide),
      dictGet_dictSet_other _ _ _ _ (by decide)]
    rw [rowGet] at hlv
    exact hlv
  · rw [hhdf]
    simp only [rowGet]
    rw [dictGet_filter _ _ _ (fun v2 => rfl),
      dictGet_dictSet_other _ _ _ _ (by decide),
      dictGet_dictSet_other _ _ _ _ (by decide)]
    rw [rowGet] at hrv
    exact hrv

theorem unreachable_alignment_w :
    ∃ hdf u, create_unreachable_df
        [(0, [("length", natVal 100), ("radius", natVal 4)])]
        = Except.ok (hdf, u) ∧
      (hdf.length = u.length ∧
      ∀ i (h2 : i < hdf.length) (h3 : i < u.length),
        (u.get ⟨i, h3⟩).1 = (hdf.get ⟨i, h2⟩).1 ∧
        ∃ (lv rv : PyVal) (w e : Bool),
          rowGet (hdf.get ⟨i, h2⟩).2 "length" = Except.ok lv ∧
          rowGet (hdf.get ⟨i, h2⟩).2 "radius" = Except.ok rv ∧
          has_warning lv rv = Except.ok w ∧
          has_error lv rv = Except.ok e ∧
          (u.get ⟨i, h3⟩).2 = [(flagW, PyVal.bool w), (flagE, PyVal.bool e)]) :=
  ⟨_, _, rfl, unreachable_alignment
    [(0, [("length", natVal 100), ("radius", natVal 4)])] _ _ rfl⟩

/-- Claim C8: after the classifier runs inside `transform`, the returned
holes table is exactly the pre-classification holes table produced by
`create_holes_df`: the two flag columns are absent, and every row carries
exactly the `part_index` column followed by the 13 feature columns, with
unchanged values and unchanged row order (hole_index identity preserved). -/
theorem classifier_frame (parts : List PartRow) (hdf u : List (Nat × Row))
    (hok : transform parts = Except.ok (hdf, u)) :
    ∃ hh, create_holes_df parts = Except.ok hh ∧ hdf = hh ∧
      ∀ ir ∈ hdf, ir.2.map Prod.fst = "part_index" :: featureNames ∧
        flagW ∉ ir.2.map Prod.fst ∧ flagE ∉ ir.2.map Prod.fst := by
  simp only [transform, bind_ok] at hok
  obtain ⟨dfh, hdfh, hunr⟩ := hok
  have hkeys := create_holes_row_keys parts dfh hdfh
  obtain ⟨hlen1, hlen2, hpt⟩ := create_unreachable_ok dfh hdf u hunr
  have heq : hdf = dfh := by
    apply List.ext_get hlen1
    intro i hi1 hi2
    obtain ⟨lv, rv, w, e, hlv, hrv, hw, he, hhdf, hu⟩ :=
      hpt i hi2 hi1 (by rw [hlen2]; exact hi2)
    rw [hhdf]
    have hr := hkeys (dfh.get ⟨i, hi2⟩) (List.get_mem dfh i hi2)
    have hfilter : ((dictSet (dictSet (dfh.get ⟨i, hi2⟩).2 flagW
        (PyVal.bool w)) flagE (PyVal.bool e)).filter
          (fun kv => kv.1 != flagW && kv.1 != flagE))
        = (dfh.get ⟨i, hi2⟩).2 := by
      rw [filter_dictSet _ _ _ _ (fun v2 => rfl),
        filter_dictSet _ _ _ _ (fun v2 => rfl)]
      apply List.filter_eq_self.mpr
      intro kv hkv
      have hk : kv.1 ∈ (dfh.get ⟨i, hi2⟩).2.map Prod.fst :=
        List.mem_map_of_mem Prod.fst hkv
      rw [hr] at hk
      simp only [Bool.and_eq_true, bne_iff_ne]
      constructor
      · intro hc
        rw [hc] at hk
        revert hk
        decide
      · intro hc
        rw [hc] at hk
        revert hk
        decide
    rw [hfilter]
  refine ⟨dfh, hdfh, heq, ?_⟩
  intro ir hir
  rw [heq] at hir
  have hk := hkeys ir hir
  refine ⟨hk, ?_, ?_⟩
  · rw [hk]
    decide
  · rw [hk]
    decide

theorem classifier_frame_w :
    ∃ hdf u, transform
        [PartRow.mk 0 (some "[\x7b\"length\": 100, \"radius\": 4\x7d]")]
        = Except.ok (hdf, u) ∧
      ∃ hh, create_holes_df
          [PartRow.mk 0 (some "[\x7b\"length\": 100, \"radius\": 4\x7d]")]
          = Except.ok hh ∧ hdf = hh ∧
        ∀ ir ∈ hdf, ir.2.map Prod.fst = "part_index" :: featureNames ∧
          flagW ∉ ir.2.map Prod.fst ∧ flagE ∉ ir.2.map Prod.fst :=
  ⟨_, _, rfl, classifier_frame
    [PartRow.mk 0 (some "[\x7b\"length\": 100, \"radius\": 4\x7d]")] _ _ rfl⟩
